import Mathlib

/-!
# LightGBM `MultiValDenseBin` (src/io/multi_val_dense_bin.hpp)

A shallow embedding of the dense multi-value bin store and of its histogram
accumulators, followed by theorems about them.

Modelling conventions.

* `data_size_t`, `int` and `int64_t` values are integers (`Int`).  Explicit
  conversions of the source (`static_cast<int>`, `static_cast<int64_t>`, the
  narrowing store into a `VAL_T` slot) are two's-complement reductions; the
  64-bit product of `RowPtr` is reduced to its result type.  The `int` shift
  `<< 1` of `ACC_GH` is reduced to 32 bits, so the bin id `2^30` gives the slot
  index `-2^31`.  The `data_size_t` sum `prefetch_size + i` of the
  lookahead guard is checked: C++ leaves the overflow of a signed addition
  undefined, and the operation is `none` there.  The increments (`i + 1`,
  `idx + 1`, `ti + 1`) are exact.
* `std::vector` and raw arrays are lists.  Every element access is checked:
  an access outside the list makes the operation `none` (undefined behaviour).
* `score_t` and `hist_t` are declared outside this file.  Statistics live in
  one type `α` with an addition; nothing else is assumed unless stated.
* An operation that can fail returns `Option` (`none`: an access outside an
  array) or `Result` (which also tells a fatal `CHECK` from a normal return).
* A member left uninitialised by a constructor is an extra argument of the
  definition: the value its storage happens to hold.
* A `const Bin*` argument of a member function may point to the object the
  function runs on; `Bin.self` stands for that pointer.
-/

namespace LightGBM

/-! ## Machine integers and memory -/

/-- Two's-complement reduction of an integer to a signed value of `w` bits. -/
@[irreducible] def wrapSigned (w : Nat) (x : Int) : Int :=
  (x + 2 ^ (w - 1)) % 2 ^ w - 2 ^ (w - 1)

/-- The conversion `static_cast<int>(x)`. -/
def toInt32 (x : Int) : Int := wrapSigned 32 x

/-- The conversion `static_cast<int64_t>(x)`. -/
def toInt64 (x : Int) : Int := wrapSigned 64 x

/-- Range of the 32-bit signed types `int` and `data_size_t`. -/
def isInt32 (x : Int) : Prop := -2 ^ 31 ≤ x ∧ x < 2 ^ 31

instance (x : Int) : Decidable (isInt32 x) := by
  unfold isInt32; infer_instance

/-- The sum `a + b` of two 32-bit signed values (`int`, `data_size_t`); `none`
when it overflows, which C++ leaves undefined. -/
def addInt32 (a b : Int) : Option Int :=
  if isInt32 (a + b) then some (a + b) else none

/-- Element read `xs[i]`; `none` when `i` is outside the array. -/
def readAt {α : Type} (xs : List α) (i : Int) : Option α :=
  if 0 ≤ i then xs[i.toNat]? else none

/-- Element store `xs[i] = v`; `none` when `i` is outside the array. -/
def writeAt {α : Type} (xs : List α) (i : Int) (v : α) : Option (List α) :=
  if 0 ≤ i ∧ i.toNat < xs.length then some (xs.set i.toNat v) else none

/-- The loop `for (i = start; i < end; ++i) body`, unrolled `n` times from `i`. -/
def forLoop {σ : Type} (body : Int → σ → Option σ) : Nat → Int → σ → Option σ
  | 0, _, s => some s
  | n + 1, i, s => (body i s).bind (forLoop body n (i + 1))

/-- The loop `for (i = start; i < end; ++i) body`.  The body never assigns `i`
or the bounds, so the loop runs exactly `end - start` times (none if that is
negative). -/
def forRange {σ : Type} (start end_ : Int) (body : Int → σ → Option σ) (s : σ) : Option σ :=
  forLoop body (end_ - start).toNat start s

/-- How an operation ends: normally with a new state, by a failed `CHECK`
(fatal, carrying the state reached when it fired), or in undefined behaviour
(an access outside an array, a null dereference). -/
inductive Result (σ : Type) where
  | ok (s : σ)
  | fatal (s : σ)
  | undefined
deriving DecidableEq, Repr

/-! ## The bin store -/

/-- The class `MultiValDenseBin<VAL_T>`.  `VAL_T` is the bit width of the
template parameter (8, 16 or 32). -/
structure MultiValDenseBin where
  VAL_T : Nat
  num_data_ : Int
  num_bin_ : Int
  num_feature_ : Int
  data_ : List Nat
deriving DecidableEq, Repr

namespace MultiValDenseBin

/-- The `int` and `data_size_t` members hold 32-bit signed values. -/
def WellTyped (m : MultiValDenseBin) : Prop :=
  isInt32 m.num_data_ ∧ isInt32 m.num_bin_ ∧ isInt32 m.num_feature_

instance (m : MultiValDenseBin) : Decidable m.WellTyped := by
  unfold WellTyped; infer_instance

/-- The accessor `num_data()`. -/
def num_data (m : MultiValDenseBin) : Int := m.num_data_

/-- The accessor `num_bin()`. -/
def num_bin (m : MultiValDenseBin) : Int := m.num_bin_

/-- `RowPtr(idx)`: `static_cast<int64_t>(idx) * num_feature_`, a 64-bit product. -/
def RowPtr (m : MultiValDenseBin) (idx : Int) : Int :=
  toInt64 (toInt64 idx * toInt64 m.num_feature_)

/-- Body of the loop of `PushOneRow`: `data_[i] = values[i - start]`, the value
narrowed to `VAL_T`. -/
def PushOneRow.body (bits : Nat) (values : List Nat) (start : Int) (i : Int)
    (data : List Nat) : Option (List Nat) :=
  (readAt values (i - start)).bind fun v => writeAt data i (v % 2 ^ bits)

/-- `PushOneRow(tid, idx, values)`.  `CHECK(c)` is declared outside this file;
it is taken as the fatal abort on a false condition that the specification
describes. -/
def PushOneRow (m : MultiValDenseBin) (_tid : Int) (idx : Int) (values : List Nat) :
    Result MultiValDenseBin :=
  let start := m.RowPtr idx
  let end_ := m.RowPtr (idx + 1)
  if m.num_feature_ = toInt32 (values.length : Int) then
    match forRange start end_ (PushOneRow.body m.VAL_T values start) m.data_ with
    | some data => Result.ok { m with data_ := data }
    | none => Result.undefined
  else Result.fatal m

/-- The macro `ACC_GH(hist, i, g, h)`: `ti = static_cast<int>(i) << 1;
hist[ti] += g; hist[ti + 1] += h`.  The shift is an `int` operation: its result
is the doubled value reduced to 32 bits (for `i = 2^30` it is `-2^31`); `ti` is
then even, so `ti + 1` does not overflow.  The arguments `g` and `h` are the
expressions at the call site, `none` when evaluating them reads outside an
array. -/
def ACC_GH {α : Type} [Add α] (hist : List α) (i : Nat) (g h : Option α) :
    Option (List α) :=
  let ti := toInt32 (toInt32 (i : Int) * 2)
  g.bind fun gv =>
  (readAt hist ti).bind fun a =>
  (writeAt hist ti (a + gv)).bind fun hist1 =>
  h.bind fun hv =>
  (readAt hist1 (ti + 1)).bind fun b =>
  writeAt hist1 (ti + 1) (b + hv)

/-- Body of the inner loop of every `ConstructHistogram`:
`const VAL_T bin = data_[idx]; ACC_GH(out, bin, g, h)`. -/
def rowBody {α : Type} [Add α] (m : MultiValDenseBin) (g h : Option α) (idx : Int)
    (out : List α) : Option (List α) :=
  (readAt m.data_ idx).bind fun bin => ACC_GH out bin g h

/-- The inner loop `for (int64_t idx = RowPtr(r); idx < RowPtr(r + 1); ++idx)`
of every `ConstructHistogram`, for row `r`. -/
def rowLoop {α : Type} [Add α] (m : MultiValDenseBin) (r : Int) (g h : Option α)
    (out : List α) : Option (List α) :=
  forRange (m.RowPtr r) (m.RowPtr (r + 1)) (rowBody m g h) out

/-- The constant `prefetch_size`. -/
def prefetch_size : Int := 16

/-- Modelled from the spec: the macro `PREFETCH_T0(addr)`, declared outside this
file, is a hint to prefetch an address and has no effect on the state. -/
def PREFETCH_T0 : Option Unit := some ()

/-- The guarded block `if (prefetch_size + i < end) { PREFETCH_T0(...); ... }`
that opens the loop body of every `ConstructHistogram`.  The guard adds two
`data_size_t` values; `args` is the evaluation of the argument expressions of
the hints, `none` when it reads outside an array. -/
def prefetchBlock (end_ i : Int) (args : Option Unit) : Option Unit :=
  (addInt32 prefetch_size i).bind fun ahead =>
  if ahead < end_ then args.bind fun _ => PREFETCH_T0 else some ()

/-- `ConstructHistogram(data_indices, start, end, gradients, hessians, out)`.
The arguments of the hints read `data_indices[i + prefetch_size]`, which is
checked. -/
def ConstructHistogramIndexed {α : Type} [Add α] (m : MultiValDenseBin)
    (data_indices : List Int) (start end_ : Int) (gradients hessians : List α)
    (out : List α) : Option (List α) :=
  forRange start end_ (fun i out =>
    (prefetchBlock end_ i
      ((readAt data_indices (i + prefetch_size)).bind fun _ => some ())).bind fun _ =>
    (readAt data_indices i).bind fun r =>
    rowLoop m r (readAt gradients r) (readAt hessians r) out) out

/-- `ConstructHistogram(start, end, gradients, hessians, out)`.  The arguments
of the hints only form addresses (`gradients + i + prefetch_size`, ...) and
read nothing. -/
def ConstructHistogram {α : Type} [Add α] (m : MultiValDenseBin)
    (start end_ : Int) (gradients hessians : List α) (out : List α) :
    Option (List α) :=
  forRange start end_ (fun i out =>
    (prefetchBlock end_ i (some ())).bind fun _ =>
    rowLoop m i (readAt gradients i) (readAt hessians i) out) out

/-- `ConstructHistogram(data_indices, start, end, gradients, out)`: the hessian
argument of `ACC_GH` is the literal `1.0f`. -/
def ConstructHistogramIndexedGrad {α : Type} [Add α] [One α] (m : MultiValDenseBin)
    (data_indices : List Int) (start end_ : Int) (gradients : List α)
    (out : List α) : Option (List α) :=
  forRange start end_ (fun i out =>
    (prefetchBlock end_ i
      ((readAt data_indices (i + prefetch_size)).bind fun _ => some ())).bind fun _ =>
    (readAt data_indices i).bind fun r =>
    rowLoop m r (readAt gradients r) (some 1) out) out

/-- `ConstructHistogram(start, end, gradients, out)`: the hessian argument of
`ACC_GH` is the literal `1.0f`. -/
def ConstructHistogramGrad {α : Type} [Add α] [One α] (m : MultiValDenseBin)
    (start end_ : Int) (gradients : List α) (out : List α) : Option (List α) :=
  forRange start end_ (fun i out =>
    (prefetchBlock end_ i (some ())).bind fun _ =>
    rowLoop m i (readAt gradients i) (some 1) out) out

end MultiValDenseBin

/-- What the `const Bin*` argument of a member function can point to: another
object that is a `MultiValDenseBin<T>` for some `T`, an object of another class
(sparse, single-feature dense, ...), or the very object the member function
runs on. -/
inductive Bin where
  | multiValDense (b : MultiValDenseBin)
  | other
  | self
deriving DecidableEq, Repr

/-- A non-null `const MultiValDenseBin<VAL_T>*` inside a member function: it
points to another store or to the store the function runs on. -/
inductive DensePtr where
  | another (b : MultiValDenseBin)
  | self
deriving DecidableEq, Repr

/-- The object a pointer designates while the store the function runs on is in
the state `this`. -/
def DensePtr.deref (p : DensePtr) (this : MultiValDenseBin) : MultiValDenseBin :=
  match p with
  | DensePtr.another b => b
  | DensePtr.self => this

/-- The cast `dynamic_cast<const MultiValDenseBin<VAL_T>*>(full_bin)` in a
member function of a store of value type `bits`: the pointer when the object's
class is `MultiValDenseBin` of the same `VAL_T` (as that of the store itself
is), otherwise the null pointer. -/
def dynamic_cast (bits : Nat) : Bin → Option DensePtr
  | Bin.multiValDense b => if b.VAL_T = bits then some (DensePtr.another b) else none
  | Bin.other => none
  | Bin.self => some DensePtr.self

/-- The store that `full_bin` points to, if it is a `MultiValDenseBin`, while
the store the function runs on is in the state `this`. -/
def Bin.pointee (full_bin : Bin) (this : MultiValDenseBin) : Option MultiValDenseBin :=
  match full_bin with
  | Bin.multiValDense b => some b
  | Bin.other => none
  | Bin.self => some this

namespace MultiValDenseBin

/-- Inner loop body of `CopySubset`: `data_.push_back(other_bin->data_[j])`.
`data` is the target's vector as rebuilt so far; it is also what
`other_bin->data_` is when `other_bin` points to the target. -/
def CopySubset.inner (m : MultiValDenseBin) (other : DensePtr) (j : Int)
    (data : List Nat) : Option (List Nat) :=
  (readAt (other.deref { m with data_ := data }).data_ j).bind fun v => some (data ++ [v])

/-- Outer loop body of `CopySubset`.  `other_bin->RowPtr(...)` dereferences
`other_bin`, which is undefined for the null pointer. -/
def CopySubset.outer (m : MultiValDenseBin) (other_bin : Option DensePtr)
    (used_indices : List Int) (i : Int) (data : List Nat) : Option (List Nat) :=
  other_bin.bind fun other =>
  (readAt used_indices i).bind fun r =>
  forRange ((other.deref { m with data_ := data }).RowPtr r)
    ((other.deref { m with data_ := data }).RowPtr (r + 1)) (CopySubset.inner m other) data

/-- `CopySubset(full_bin, used_indices, num_used_indices)`: the cast, then
`data_.clear()`, then the copy loops. -/
def CopySubset (m : MultiValDenseBin) (full_bin : Bin) (used_indices : List Int)
    (num_used_indices : Int) : Result MultiValDenseBin :=
  let other_bin := dynamic_cast m.VAL_T full_bin
  match forRange 0 num_used_indices (CopySubset.outer m other_bin used_indices) [] with
  | some data => Result.ok { m with data_ := data }
  | none => Result.undefined

/-- The constructor `MultiValDenseBin(num_data, num_bin, num_feature)`.  Its
body is the call `data_.size(static_cast<size_t>(num_data_) * num_feature_, 0)`:
`size` is the length observer of `std::vector` (the allocating member is
`resize`), so nothing is stored and `data_` stays default-constructed, empty. -/
def ctor (bits : Nat) (num_data num_bin num_feature : Int) : MultiValDenseBin :=
  { VAL_T := bits, num_data_ := num_data, num_bin_ := num_bin,
    num_feature_ := num_feature, data_ := [] }

/-- `FinishLoad()`: empty body. -/
def FinishLoad (m : MultiValDenseBin) : MultiValDenseBin := m

/-- `IsSparse()`. -/
def IsSparse (_m : MultiValDenseBin) : Bool := false

/-- `ReSize(num_data)`. -/
def ReSize (m : MultiValDenseBin) (num_data : Int) : MultiValDenseBin :=
  if m.num_data_ ≠ num_data then { m with num_data_ := num_data } else m

/-- The copy constructor.  Its initialiser list names `num_data_`, `data_` and
`num_feature_` only; `num_bin_` is left uninitialised, and `indeterminate` is
the value that happens to be in its storage. -/
def copy_ctor (other : MultiValDenseBin) (indeterminate : Int) : MultiValDenseBin :=
  { VAL_T := other.VAL_T, num_data_ := other.num_data_, num_bin_ := indeterminate,
    num_feature_ := other.num_feature_, data_ := other.data_ }

/-- `Clone()`: `new MultiValDenseBin<VAL_T>(*this)`. -/
def Clone (m : MultiValDenseBin) (indeterminate : Int) : MultiValDenseBin :=
  copy_ctor m indeterminate

/-- The storage-length invariant of the specification. -/
def LengthInv (m : MultiValDenseBin) : Prop :=
  (m.data_.length : Int) = m.num_data * m.num_feature_

instance (m : MultiValDenseBin) : Decidable m.LengthInv := by
  unfold LengthInv; infer_instance

end MultiValDenseBin

/-- States reachable from the constructor by `PushOneRow` with a row of the
right length, `FinishLoad`, `ReSize`, `CopySubset` from another reachable store
and `Clone`. -/
inductive Reachable : MultiValDenseBin → Prop where
  | ctor (bits : Nat) (num_data num_bin num_feature : Int) :
      Reachable (MultiValDenseBin.ctor bits num_data num_bin num_feature)
  | pushOneRow {m s : MultiValDenseBin} (tid idx : Int) (values : List Nat) :
      Reachable m → (values.length : Int) = m.num_feature_ →
      m.PushOneRow tid idx values = Result.ok s → Reachable s
  | finishLoad {m : MultiValDenseBin} : Reachable m → Reachable m.FinishLoad
  | reSize {m : MultiValDenseBin} (n : Int) : Reachable m → Reachable (m.ReSize n)
  | copySubset {m src s : MultiValDenseBin} (used_indices : List Int) (k : Int) :
      Reachable m → Reachable src →
      m.CopySubset (Bin.multiValDense src) used_indices k = Result.ok s → Reachable s
  | clone {m : MultiValDenseBin} (indeterminate : Int) :
      Reachable m → Reachable (m.Clone indeterminate)

/-- A mutation of a store: one of the operations named by the specification. -/
inductive Mutation where
  | pushOneRow (tid idx : Int) (values : List Nat)
  | reSize (n : Int)
  | copySubset (full_bin : Bin) (used_indices : List Int) (k : Int)

/-- A mutation applied to the original of a pair (original, clone).  The clone
is a separate object with its own vector, so only the first component changes. -/
def Mutation.onOriginal (μ : Mutation) (p : MultiValDenseBin × MultiValDenseBin) :
    Result (MultiValDenseBin × MultiValDenseBin) :=
  match μ with
  | Mutation.pushOneRow tid idx values =>
    match p.1.PushOneRow tid idx values with
    | Result.ok s => Result.ok (s, p.2)
    | Result.fatal s => Result.fatal (s, p.2)
    | Result.undefined => Result.undefined
  | Mutation.reSize n => Result.ok (p.1.ReSize n, p.2)
  | Mutation.copySubset full_bin used_indices k =>
    match p.1.CopySubset full_bin used_indices k with
    | Result.ok s => Result.ok (s, p.2)
    | Result.fatal s => Result.fatal (s, p.2)
    | Result.undefined => Result.undefined

/-- The state carried by an outcome, if any. -/
def Result.state? {σ : Type} : Result σ → Option σ
  | Result.ok s => some s
  | Result.fatal s => some s
  | Result.undefined => none

/-- The store of the specification's example: three rows `[1,2]`, `[3,4]`,
`[5,6]` of two packed features, bin ids below 7, stored as `uint8_t`. -/
def exampleStore : MultiValDenseBin :=
  { VAL_T := 8, num_data_ := 3, num_bin_ := 7, num_feature_ := 2,
    data_ := [1, 2, 3, 4, 5, 6] }

/-! ## Reference quantities -/

/-- What one occurrence of bin `b`, with statistics `g` and `h`, adds to
accumulator slot `k`: `g` at slot `2b`, `h` at slot `2b + 1`. -/
def binTerm {α : Type} [AddCommMonoid α] (g h : α) (b : Nat) (k : Nat) : α :=
  (if k = 2 * b then g else 0) + (if k = 2 * b + 1 then h else 0)

/-- The operation `f` is defined on every buffer of length `L`, keeps that
length, and adds `t k` to slot `k`. -/
def Adds {α : Type} [AddCommMonoid α] (L : Nat) (f : List α → Option (List α))
    (t : Nat → α) : Prop :=
  ∀ out, out.length = L →
    ∃ res, f out = some res ∧ res.length = L ∧ ∀ k, res[k]? = (out[k]?).map (· + t k)

/-- The guarantees of the collaborators for a store `m` and a histogram buffer
of length `L`: members within their types, storage of `num_data * num_feature`
values, every stored value below `num_bin`, and `2 * num_bin` accumulators, a
number of slots that the `int` index of `ACC_GH` can address
(`2 * num_bin <= 2^31`). -/
def StoreOK (m : MultiValDenseBin) (L : Nat) : Prop :=
  m.WellTyped ∧ m.LengthInv ∧
    (∀ v ∈ m.data_, (v : Int) < m.num_bin_) ∧ (L : Int) = 2 * m.num_bin_ ∧
    (L : Int) ≤ 2 ^ 31

instance (m : MultiValDenseBin) (L : Nat) : Decidable (StoreOK m L) := by
  unfold StoreOK; infer_instance

/-- What visiting row `r` with statistics `g`, `h` adds to accumulator slot `k`. -/
def rowTerm {α : Type} [AddCommMonoid α] (m : MultiValDenseBin) (g h : α) (r : Nat)
    (k : Nat) : α :=
  ∑ c in Finset.range m.num_feature_.toNat,
    binTerm g h (m.data_.getD (r * m.num_feature_.toNat + c) 0) k

/-- The stored values of row `r`: the slice `[r * num_feature, (r + 1) * num_feature)`
of the storage. -/
def rowVals (m : MultiValDenseBin) (r : Nat) : List Nat :=
  (m.data_.drop (r * m.num_feature_.toNat)).take m.num_feature_.toNat

/-- A call of one of the four `ConstructHistogram` overloads: its arguments
other than the output buffer. -/
inductive HistCall (α : Type) where
  | full (start end_ : Int) (gradients hessians : List α)
  | indexed (data_indices : List Int) (start end_ : Int) (gradients hessians : List α)
  | fullGrad (start end_ : Int) (gradients : List α)
  | indexedGrad (data_indices : List Int) (start end_ : Int) (gradients : List α)

/-- The overload a call stands for, applied to the buffer. -/
def HistCall.run {α : Type} [Add α] [One α] (m : MultiValDenseBin) :
    HistCall α → List α → Option (List α)
  | HistCall.full s e g h, out => m.ConstructHistogram s e g h out
  | HistCall.indexed di s e g h, out => m.ConstructHistogramIndexed di s e g h out
  | HistCall.fullGrad s e g, out => m.ConstructHistogramGrad s e g out
  | HistCall.indexedGrad di s e g, out => m.ConstructHistogramIndexedGrad di s e g out

/-- The bounds `start` and `end` of a call. -/
def HistCall.range {α : Type} : HistCall α → Int × Int
  | HistCall.full s e _ _ => (s, e)
  | HistCall.indexed _ s e _ _ => (s, e)
  | HistCall.fullGrad s e _ => (s, e)
  | HistCall.indexedGrad _ s e _ => (s, e)

/-- The row ids a call visits, in order: `start, ..., end - 1`, or the entries
of `data_indices` at those positions. -/
def HistCall.rows {α : Type} : HistCall α → List Int
  | HistCall.full s e _ _ => (List.range (e - s).toNat).map fun j : Nat => s + (j : Int)
  | HistCall.indexed di s e _ _ => (di.drop s.toNat).take (e - s).toNat
  | HistCall.fullGrad s e _ => (List.range (e - s).toNat).map fun j : Nat => s + (j : Int)
  | HistCall.indexedGrad di s e _ => (di.drop s.toNat).take (e - s).toNat

/-- The gradient a call adds for row `r`. -/
def HistCall.grad {α : Type} [Zero α] : HistCall α → Nat → α
  | HistCall.full _ _ g _, r => g.getD r 0
  | HistCall.indexed _ _ _ g _, r => g.getD r 0
  | HistCall.fullGrad _ _ g, r => g.getD r 0
  | HistCall.indexedGrad _ _ _ g, r => g.getD r 0

/-- The hessian a call adds for row `r`: the array entry, or the constant 1. -/
def HistCall.hess {α : Type} [Zero α] [One α] : HistCall α → Nat → α
  | HistCall.full _ _ _ h, r => h.getD r 0
  | HistCall.indexed _ _ _ _ h, r => h.getD r 0
  | HistCall.fullGrad _ _ _, _ => 1
  | HistCall.indexedGrad _ _ _ _, _ => 1

/-- The arguments of a call are within bounds: the range lies in the row range
(full variants) or in `data_indices`, whose entries there are row ids (indexed
variants), the lookahead position `i + prefetch_size` of every `i` below `end`
is a `data_size_t` (`end + prefetch_size <= 2^31`), and the statistics arrays
cover every row. -/
def HistCall.InBounds {α : Type} (m : MultiValDenseBin) : HistCall α → Prop
  | HistCall.full s e g h =>
      0 ≤ s ∧ e ≤ m.num_data ∧ e + MultiValDenseBin.prefetch_size ≤ 2 ^ 31 ∧
        m.num_data ≤ g.length ∧ m.num_data ≤ h.length
  | HistCall.indexed di s e g h =>
      0 ≤ s ∧ e ≤ di.length ∧ e + MultiValDenseBin.prefetch_size ≤ 2 ^ 31 ∧
        (∀ r ∈ (di.drop s.toNat).take (e - s).toNat, 0 ≤ r ∧ r < m.num_data) ∧
        m.num_data ≤ g.length ∧ m.num_data ≤ h.length
  | HistCall.fullGrad s e g =>
      0 ≤ s ∧ e ≤ m.num_data ∧ e + MultiValDenseBin.prefetch_size ≤ 2 ^ 31 ∧
        m.num_data ≤ g.length
  | HistCall.indexedGrad di s e g =>
      0 ≤ s ∧ e ≤ di.length ∧ e + MultiValDenseBin.prefetch_size ≤ 2 ^ 31 ∧
        (∀ r ∈ (di.drop s.toNat).take (e - s).toNat, 0 ≤ r ∧ r < m.num_data) ∧
        m.num_data ≤ g.length

instance {α : Type} (m : MultiValDenseBin) (c : HistCall α) : Decidable (c.InBounds m) := by
  cases c <;> (unfold HistCall.InBounds; infer_instance)

/-- What a call adds to accumulator slot `k`, over all the rows it visits. -/
def HistCall.term {α : Type} [AddCommMonoid α] [One α] (m : MultiValDenseBin)
    (c : HistCall α) (k : Nat) : α :=
  (c.rows.map fun r => rowTerm m (c.grad r.toNat) (c.hess r.toNat) r.toNat k).sum

/-- The number of occurrences of bin id `b` in row `r`: the columns `c` with
`data_[r * num_feature + c] = b`. -/
def occurrences (m : MultiValDenseBin) (r b : Nat) : Nat :=
  ((Finset.range m.num_feature_.toNat).filter
    fun c => m.data_[r * m.num_feature_.toNat + c]? = some b).card

/-- Element-wise sum of two buffers. -/
def addBuffers {α : Type} [Add α] (a b : List α) : List α := List.zipWith (· + ·) a b

end LightGBM

/-! # Theorems -/

namespace LightGBM
open MultiValDenseBin

/-! ## Machine integers -/

theorem toInt32_eq {x : Int} (h : isInt32 x) : toInt32 x = x := by
  unfold isInt32 at h
  unfold toInt32 wrapSigned
  norm_num at h ⊢
  omega

theorem addInt32_eq {a b : Int} (h : isInt32 (a + b)) : addInt32 a b = some (a + b) := by
  unfold addInt32
  rw [if_pos h]

/-- The guarded block depends on the hints' arguments only where the guard
holds. -/
theorem prefetchBlock_congr (end_ i : Int) (a b : Option Unit)
    (h : prefetch_size + i < end_ → a = b) :
    prefetchBlock end_ i a = prefetchBlock end_ i b := by
  unfold prefetchBlock addInt32
  by_cases hty : isInt32 (prefetch_size + i)
  · rw [if_pos hty, Option.some_bind, Option.some_bind]
    by_cases hlt : prefetch_size + i < end_
    · rw [if_pos hlt, if_pos hlt, h hlt]
    · rw [if_neg hlt, if_neg hlt]
  · rw [if_neg hty]
    rfl

/-- The guarded block has no effect when the lookahead position is a
`data_size_t` and the hints' arguments are defined where the guard holds. -/
theorem prefetchBlock_some (end_ i : Int) (a : Option Unit) (h0 : 0 ≤ i)
    (hi : i + prefetch_size < 2 ^ 31) (h : prefetch_size + i < end_ → a = some ()) :
    prefetchBlock end_ i a = some () := by
  have hty : isInt32 (prefetch_size + i) := by
    unfold isInt32
    unfold prefetch_size at hi ⊢
    norm_num at hi ⊢
    omega
  unfold prefetchBlock
  rw [addInt32_eq hty, Option.some_bind]
  by_cases hlt : prefetch_size + i < end_
  · rw [if_pos hlt, h hlt]
    rfl
  · rw [if_neg hlt]

theorem toInt64_eq {x : Int} (h1 : -2 ^ 63 ≤ x) (h2 : x < 2 ^ 63) : toInt64 x = x := by
  unfold toInt64 wrapSigned
  norm_num at h1 h2 ⊢
  omega

theorem isInt32_mul_bounds {a b : Int} (ha : isInt32 a) (hb : isInt32 b) :
    -2 ^ 63 ≤ a * b ∧ a * b < 2 ^ 63 := by
  unfold isInt32 at ha hb
  norm_num at ha hb ⊢
  constructor <;> nlinarith [mul_nonneg (sub_nonneg.2 ha.1) (sub_nonneg.2 hb.1)]

theorem RowPtr_eq (m : MultiValDenseBin) {idx : Int} (hi : isInt32 idx)
    (hf : isInt32 m.num_feature_) : m.RowPtr idx = idx * m.num_feature_ := by
  have hb := isInt32_mul_bounds hi hf
  have h1 : toInt64 idx = idx := toInt64_eq (by unfold isInt32 at hi; norm_num at hi ⊢; omega)
    (by unfold isInt32 at hi; norm_num at hi ⊢; omega)
  have h2 : toInt64 m.num_feature_ = m.num_feature_ :=
    toInt64_eq (by unfold isInt32 at hf; norm_num at hf ⊢; omega)
      (by unfold isInt32 at hf; norm_num at hf ⊢; omega)
  unfold RowPtr
  rw [h1, h2]
  exact toInt64_eq hb.1 hb.2

/-! ## Checked memory and loops -/

theorem readAt_natCast {α : Type} (xs : List α) (k : Nat) : readAt xs (k : Int) = xs[k]? := by
  simp [readAt]

theorem readAt_eq_some_iff {α : Type} (xs : List α) (i : Int) (v : α) :
    readAt xs i = some v ↔ 0 ≤ i ∧ xs[i.toNat]? = some v := by
  unfold readAt
  split <;> simp [*]

theorem writeAt_natCast {α : Type} (xs : List α) (k : Nat) (v : α) (h : k < xs.length) :
    writeAt xs (k : Int) v = some (xs.set k v) := by
  simp [writeAt, h]

@[simp] theorem forLoop_zero {σ : Type} (body : Int → σ → Option σ) (i : Int) (s : σ) :
    forLoop body 0 i s = some s := rfl

@[simp] theorem forLoop_succ {σ : Type} (body : Int → σ → Option σ) (n : Nat) (i : Int) (s : σ) :
    forLoop body (n + 1) i s = (body i s).bind (forLoop body n (i + 1)) := rfl

/-- Bodies that agree on the visited indices give the same loop. -/
theorem forLoop_congr {σ : Type} (f g : Int → σ → Option σ) (n : Nat) (i : Int)
    (h : ∀ j : Nat, j < n → ∀ s, f (i + j) s = g (i + j) s) (s : σ) :
    forLoop f n i s = forLoop g n i s := by
  induction n generalizing i s with
  | zero => rfl
  | succ n ih =>
    have h0 := h 0 (Nat.succ_pos n) s
    simp only [Nat.cast_zero, add_zero] at h0
    simp only [forLoop_succ, h0]
    cases g i s with
    | none => rfl
    | some s1 =>
      simp only [Option.some_bind]
      apply ih
      intro j hj s2
      have e : i + 1 + (j : Int) = i + ((j + 1 : Nat) : Int) := by push_cast; ring
      rw [e]
      exact h (j + 1) (Nat.succ_lt_succ hj) s2

/-- A loop splits at any intermediate index. -/
theorem forLoop_add {σ : Type} (body : Int → σ → Option σ) (n k : Nat) (i : Int) (s : σ) :
    forLoop body (n + k) i s = (forLoop body n i s).bind (forLoop body k (i + n)) := by
  induction n generalizing i s with
  | zero => simp
  | succ n ih =>
    rw [Nat.add_right_comm]
    simp only [forLoop_succ]
    cases body i s with
    | none => rfl
    | some s1 =>
      simp only [Option.some_bind]
      rw [ih]
      have e : i + 1 + (n : Int) = i + ((n + 1 : Nat) : Int) := by push_cast; ring
      rw [e]

/-! ## Accumulation adds -/

theorem Adds_congr {α : Type} [AddCommMonoid α] {L : Nat} {f f' : List α → Option (List α)}
    {t t' : Nat → α} (h : Adds L f t) (hf : ∀ out, out.length = L → f' out = f out)
    (ht : ∀ k, k < L → t' k = t k) : Adds L f' t' := by
  intro out hout
  obtain ⟨res, h1, h2, h3⟩ := h out hout
  refine ⟨res, by rw [hf out hout, h1], h2, ?_⟩
  intro k
  rw [h3 k]
  by_cases hk : k < L
  · rw [ht k hk]
  · rw [List.getElem?_eq_none (by omega)]
    rfl

theorem Adds_forLoop {α : Type} [AddCommMonoid α] (L : Nat)
    (body : Int → List α → Option (List α)) (t : Nat → Nat → α) (n : Nat) (s : Int)
    (h : ∀ j, j < n → Adds L (body (s + j)) (t j)) :
    Adds L (forLoop body n s) (fun k => ∑ j in Finset.range n, t j k) := by
  induction n with
  | zero =>
    intro out hout
    refine ⟨out, rfl, hout, ?_⟩
    intro k
    cases out[k]? <;> simp
  | succ n ih =>
    intro out hout
    obtain ⟨r1, h1, hl1, hp1⟩ := ih (fun j hj => h j (Nat.lt_succ_of_lt hj)) out hout
    obtain ⟨r2, h2, hl2, hp2⟩ := h n (Nat.lt_succ_self n) r1 hl1
    refine ⟨r2, ?_, hl2, ?_⟩
    · rw [forLoop_add, h1]
      simp only [Option.some_bind, forLoop_succ, forLoop_zero]
      rw [h2]
      rfl
    · intro k
      rw [hp2 k, hp1 k]
      cases out[k]? <;> simp [Finset.sum_range_succ, add_assoc]

theorem Adds_ACC_GH {α : Type} [AddCommMonoid α] (L : Nat) (bin : Nat) (g h : α)
    (hb : 2 * (bin : Int) < 2 ^ 31) (hL : 2 * bin + 1 < L) :
    Adds L (fun hist => ACC_GH hist bin (some g) (some h)) (binTerm g h bin) := by
  intro out hout
  have hty : isInt32 (bin : Int) := by
    unfold isInt32
    norm_num at hb ⊢
    omega
  have hty2 : isInt32 ((bin : Int) * 2) := by
    unfold isInt32
    norm_num at hb ⊢
    omega
  have e1 : toInt32 (toInt32 (bin : Int) * 2) = ((2 * bin : Nat) : Int) := by
    rw [toInt32_eq hty, toInt32_eq hty2]; push_cast; ring
  have e2 : ((2 * bin : Nat) : Int) + 1 = ((2 * bin + 1 : Nat) : Int) := by push_cast; ring
  have hl0 : 2 * bin < out.length := by omega
  have hl1 : 2 * bin + 1 < out.length := by omega
  obtain ⟨a, ha⟩ : ∃ a, out[2 * bin]? = some a := ⟨_, List.getElem?_eq_getElem hl0⟩
  obtain ⟨b, hb1⟩ : ∃ b, out[2 * bin + 1]? = some b := ⟨_, List.getElem?_eq_getElem hl1⟩
  refine ⟨(out.set (2 * bin) (a + g)).set (2 * bin + 1) (b + h), ?_, by simp [hout], ?_⟩
  · simp only [ACC_GH, e1, e2, readAt_natCast, Option.some_bind, ha]
    rw [writeAt_natCast _ _ _ hl0]
    simp only [Option.some_bind]
    rw [List.getElem?_set_ne (by omega), hb1]
    simp only [Option.some_bind]
    rw [writeAt_natCast _ _ _ (by simp; omega)]
  · intro k
    simp only [List.getElem?_set, List.length_set, binTerm]
    by_cases h1 : k = 2 * bin + 1
    · subst h1
      simp [hb1, hl1]
    · by_cases h2 : k = 2 * bin
      · subst h2
        simp [ha, hl0]
      · have h1' : ¬ 2 * bin + 1 = k := fun e => h1 e.symm
        have h2' : ¬ 2 * bin = k := fun e => h2 e.symm
        simp only [h1', h2', h1, h2, if_false, add_zero]
        cases out[k]? <;> simp

theorem toNat_cast_of_lt {x : Int} {j : Nat} (h : j < x.toNat) : (x.toNat : Int) = x := by
  omega

/-- Beyond `2^31` slots the `int` slot index of `ACC_GH` wraps: for the bin id
`2^30` the shift gives `-2^31`, and the access is outside every buffer. -/
theorem ACC_GH_slot_index_wraps {α : Type} [Add α] (hist : List α) (g h : α) :
    toInt32 (toInt32 ((1073741824 : Nat) : Int) * 2) = -2147483648 ∧
      ACC_GH hist 1073741824 (some g) (some h) = none := by
  have e : toInt32 (toInt32 ((1073741824 : Nat) : Int) * 2) = -2147483648 := by
    with_unfolding_all decide
  refine ⟨e, ?_⟩
  unfold ACC_GH
  rw [e, Option.some_bind]
  unfold readAt
  rw [if_neg (by decide)]
  rfl

/-- At a loop index within `prefetch_size` of `2^31` the sum of the lookahead
guard overflows, whatever the bound `end` is. -/
theorem prefetchBlock_overflow (end_ : Int) (args : Option Unit) :
    prefetchBlock end_ 2147483632 args = none := by
  unfold prefetchBlock addInt32
  rw [if_neg (by decide)]
  rfl

/-! ## Row pointers, resizing, cloning, construction -/

/-- C17: for a row index `r` (with `r` and `r + 1` representable in
`data_size_t`), `RowPtr(r) = r * num_feature` and
`RowPtr(r + 1) - RowPtr(r) = num_feature`. -/
theorem RowPtr_rows_contiguous (m : MultiValDenseBin) (r : Int)
    (hf : isInt32 m.num_feature_) (hr : isInt32 r) (hr1 : isInt32 (r + 1)) :
    m.RowPtr r = r * m.num_feature_ ∧ m.RowPtr (r + 1) - m.RowPtr r = m.num_feature_ := by
  rw [RowPtr_eq m hr hf, RowPtr_eq m hr1 hf]
  exact ⟨rfl, by ring⟩

theorem RowPtr_rows_contiguous_witness :
    exampleStore.RowPtr 1 = 1 * exampleStore.num_feature_ ∧
      exampleStore.RowPtr (1 + 1) - exampleStore.RowPtr 1 = exampleStore.num_feature_ :=
  RowPtr_rows_contiguous exampleStore 1 (by decide) (by decide) (by decide)

/-- C20: for 32-bit signed `idx` and `num_feature`, the product
`idx * num_feature` lies in `[-2^63, 2^63)`, and the 64-bit value computed by
`RowPtr` is that exact product. -/
theorem RowPtr_no_overflow (m : MultiValDenseBin) (idx : Int) (hi : isInt32 idx)
    (hf : isInt32 m.num_feature_) :
    -2 ^ 63 ≤ idx * m.num_feature_ ∧ idx * m.num_feature_ < 2 ^ 63 ∧
      m.RowPtr idx = idx * m.num_feature_ :=
  ⟨(isInt32_mul_bounds hi hf).1, (isInt32_mul_bounds hi hf).2, RowPtr_eq m hi hf⟩

theorem RowPtr_no_overflow_witness :
    -2 ^ 63 ≤ (-2147483648 : Int) * exampleStore.num_feature_ ∧
      (-2147483648 : Int) * exampleStore.num_feature_ < 2 ^ 63 ∧
      exampleStore.RowPtr (-2147483648)
        = (-2147483648 : Int) * exampleStore.num_feature_ :=
  RowPtr_no_overflow exampleStore (-2147483648) (by decide) (by decide)

/-- C15: `ReSize(n)` sets `num_data()` to `n` and leaves the storage,
`num_feature`, `num_bin` and the value type as they were; `ReSize` to the
current row count changes nothing. -/
theorem ReSize_changes_only_num_data (m : MultiValDenseBin) (n : Int) :
    (m.ReSize n).num_data = n ∧ (m.ReSize n).data_ = m.data_ ∧
      (m.ReSize n).num_feature_ = m.num_feature_ ∧ (m.ReSize n).num_bin = m.num_bin ∧
      (m.ReSize n).VAL_T = m.VAL_T ∧ m.ReSize m.num_data = m := by
  unfold ReSize num_data num_bin
  by_cases h : m.num_data_ = n
  · simp [h]
  · simp [h]

/-- C11: the clone has the row count, the packing width and the storage of the
original at clone time, and a mutation of the original (`PushOneRow`, `ReSize`,
`CopySubset`), however it ends, leaves the clone's storage equal to that. -/
theorem Clone_independent (m : MultiValDenseBin) (indeterminate : Int) (μ : Mutation) :
    (m.Clone indeterminate).num_data = m.num_data ∧
      (m.Clone indeterminate).num_feature_ = m.num_feature_ ∧
      (m.Clone indeterminate).data_ = m.data_ ∧
      ∀ p, (μ.onOriginal (m, m.Clone indeterminate)).state? = some p → p.2.data_ = m.data_ := by
  refine ⟨rfl, rfl, rfl, ?_⟩
  intro p hp
  cases μ with
  | pushOneRow tid idx values =>
    simp only [Mutation.onOriginal] at hp
    cases h : m.PushOneRow tid idx values <;> rw [h] at hp <;>
      simp only [Result.state?, Option.some.injEq] at hp
    · rw [← hp]; rfl
    · rw [← hp]; rfl
    · exact absurd hp (by simp)
  | reSize n =>
    simp only [Mutation.onOriginal, Result.state?, Option.some.injEq] at hp
    rw [← hp]; rfl
  | copySubset full_bin used_indices k =>
    simp only [Mutation.onOriginal] at hp
    cases h : m.CopySubset full_bin used_indices k <;> rw [h] at hp <;>
      simp only [Result.state?, Option.some.injEq] at hp
    · rw [← hp]; rfl
    · rw [← hp]; rfl
    · exact absurd hp (by simp)

/-- C12: the clone's `num_bin()` is the uninitialised member, whatever the
original holds: for the example store (7 bins) and a zeroed allocation the
clone reports 0 bins. -/
theorem Clone_num_bin_not_copied :
    (exampleStore.Clone 0).num_bin = 0 ∧ exampleStore.num_bin = 7 ∧
      ∀ (m : MultiValDenseBin) (indeterminate : Int),
        (m.Clone indeterminate).num_bin = indeterminate := by
  refine ⟨rfl, rfl, ?_⟩
  intro m g
  rfl

/-- C16: the constructor called with 3 rows, 7 bins and 2 features reports
`num_data() = 3` and `num_bin() = 7` but leaves the storage empty, not six
zeros; it never stores anything, whatever its arguments. -/
theorem ctor_storage_empty :
    (ctor 8 3 7 2).num_data = 3 ∧ (ctor 8 3 7 2).num_bin = 7 ∧ (ctor 8 3 7 2).data_ = [] ∧
      ∀ (bits : Nat) (num_data num_bin num_feature : Int),
        (ctor bits num_data num_bin num_feature).data_.length = 0 := by
  refine ⟨rfl, rfl, rfl, ?_⟩
  intro bits a b c
  rfl

/-! ## Subset copy -/

theorem rowPtr_span {m : MultiValDenseBin} (hf : isInt32 m.num_feature_) (hd : isInt32 m.num_data_)
    {R : Nat} (hR : (R : Int) < m.num_data_) :
    m.RowPtr (R : Int) = (R : Int) * m.num_feature_ ∧
      (m.RowPtr ((R : Int) + 1) - m.RowPtr (R : Int)).toNat = m.num_feature_.toNat := by
  have hd' := hd
  unfold isInt32 at hd'
  norm_num at hd'
  have hR0 : isInt32 (R : Int) := by unfold isInt32; norm_num; omega
  have hR1 : isInt32 ((R : Int) + 1) := by unfold isInt32; norm_num; omega
  rw [RowPtr_eq m hR0 hf, RowPtr_eq m hR1 hf]
  refine ⟨rfl, ?_⟩
  congr 1
  ring

theorem row_index_lt {m : MultiValDenseBin} (hlen : m.LengthInv) {R j : Nat}
    (hR : (R : Int) < m.num_data_) (hj : j < m.num_feature_.toNat) :
    R * m.num_feature_.toNat + j < m.data_.length := by
  unfold LengthInv num_data at hlen
  have hN : (m.num_feature_.toNat : Int) = m.num_feature_ := toNat_cast_of_lt hj
  have h0 : (0 : Int) ≤ m.num_feature_ := by rw [← hN]; exact Int.natCast_nonneg _
  have h1 : ((R : Int) + 1) * m.num_feature_ ≤ m.num_data_ * m.num_feature_ :=
    mul_le_mul_of_nonneg_right (by linarith) h0
  have h2 : ((R * m.num_feature_.toNat + j : Nat) : Int) < (m.data_.length : Int) := by
    push_cast
    rw [hN, hlen]
    have : (j : Int) < m.num_feature_ := by rw [← hN]; exact_mod_cast hj
    linarith
  exact_mod_cast h2

theorem row_end_le {m : MultiValDenseBin} (hlen : m.LengthInv) {R : Nat}
    (hR : (R : Int) < m.num_data_) :
    R * m.num_feature_.toNat + m.num_feature_.toNat ≤ m.data_.length := by
  rcases Nat.eq_zero_or_pos m.num_feature_.toNat with h | h
  · rw [h]; simp
  · have := row_index_lt hlen hR (Nat.sub_lt h Nat.one_pos)
    omega

theorem rowVals_length {m : MultiValDenseBin} (hlen : m.LengthInv) {R : Nat}
    (hR : (R : Int) < m.num_data_) : (rowVals m R).length = m.num_feature_.toNat := by
  have := row_end_le hlen hR
  unfold rowVals
  rw [List.length_take, List.length_drop]
  omega

theorem rowVals_getElem? (m : MultiValDenseBin) (R c : Nat) (hc : c < m.num_feature_.toNat) :
    (rowVals m R)[c]? = m.data_[R * m.num_feature_.toNat + c]? := by
  unfold rowVals
  rw [List.getElem?_take_of_lt hc, List.getElem?_drop]

theorem CopySubset_inner_another (m other : MultiValDenseBin) :
    CopySubset.inner m (DensePtr.another other)
      = fun j data => (readAt other.data_ j).bind fun v => some (data ++ [v]) := rfl

theorem CopySubset_inner_loop (m other : MultiValDenseBin) (n s : Nat) (data : List Nat)
    (h : s + n ≤ other.data_.length) :
    forLoop (CopySubset.inner m (DensePtr.another other)) n (s : Int) data
      = some (data ++ (other.data_.drop s).take n) := by
  rw [CopySubset_inner_another]
  induction n generalizing s data with
  | zero => simp
  | succ n ih =>
    have hs : s < other.data_.length := by omega
    have hv : other.data_[s]? = some other.data_[s] := List.getElem?_eq_getElem hs
    rw [forLoop_succ]
    rw [readAt_natCast, hv, Option.some_bind, Option.some_bind]
    have e : (s : Int) + 1 = ((s + 1 : Nat) : Int) := by push_cast; ring
    rw [e]
    have := ih (s + 1) (data ++ [other.data_[s]]) (by omega)
    rw [this, List.drop_eq_getElem_cons hs, List.take_succ_cons]
    simp

theorem CopySubset_row (m other : MultiValDenseBin) (hf : isInt32 other.num_feature_)
    (hd : isInt32 other.num_data_) (hlen : other.LengthInv) (r : Int) (hr0 : 0 ≤ r)
    (hr1 : r < other.num_data_) (data : List Nat) :
    forRange (other.RowPtr r) (other.RowPtr (r + 1))
        (CopySubset.inner m (DensePtr.another other)) data
      = some (data ++ rowVals other r.toNat) := by
  obtain ⟨R, rfl⟩ := Int.eq_ofNat_of_zero_le hr0
  obtain ⟨h1, h2⟩ := rowPtr_span hf hd hr1
  unfold forRange
  rw [h2, h1]
  rcases Nat.eq_zero_or_pos other.num_feature_.toNat with h | h
  · rw [h]
    simp [rowVals, h]
  · have hN : (other.num_feature_.toNat : Int) = other.num_feature_ := toNat_cast_of_lt h
    have e : (R : Int) * other.num_feature_ = ((R * other.num_feature_.toNat : Nat) : Int) := by
      push_cast; rw [hN]
    rw [e, CopySubset_inner_loop m other _ _ data (row_end_le hlen hr1), Int.toNat_ofNat]
    rfl

theorem CopySubset_outer_another (m other : MultiValDenseBin) (used_indices : List Int) :
    CopySubset.outer m (some (DensePtr.another other)) used_indices
      = fun i data => (readAt used_indices i).bind fun r =>
          forRange (other.RowPtr r) (other.RowPtr (r + 1))
            (CopySubset.inner m (DensePtr.another other)) data := rfl

theorem CopySubset_outer_loop (m other : MultiValDenseBin) (hf : isInt32 other.num_feature_)
    (hd : isInt32 other.num_data_) (hlen : other.LengthInv) (used_indices : List Int)
    (n p : Nat) (data : List Nat) (hp : p + n ≤ used_indices.length)
    (hv : ∀ r ∈ (used_indices.drop p).take n, 0 ≤ r ∧ r < other.num_data_) :
    forLoop (CopySubset.outer m (some (DensePtr.another other)) used_indices) n (p : Int) data
      = some (data ++ ((used_indices.drop p).take n).flatMap fun r => rowVals other r.toNat) := by
  rw [CopySubset_outer_another]
  induction n generalizing p data with
  | zero => simp
  | succ n ih =>
    have hs : p < used_indices.length := by omega
    have hr : used_indices[p]? = some used_indices[p] := List.getElem?_eq_getElem hs
    rw [List.drop_eq_getElem_cons hs, List.take_succ_cons] at hv ⊢
    have hr0 := hv used_indices[p] (List.mem_cons_self _ _)
    rw [forLoop_succ]
    rw [readAt_natCast, hr, Option.some_bind,
      CopySubset_row m other hf hd hlen _ hr0.1 hr0.2, Option.some_bind]
    have e : (p : Int) + 1 = ((p + 1 : Nat) : Int) := by push_cast; ring
    rw [e]
    have := ih (p + 1) (data ++ rowVals other used_indices[p].toNat) (by omega)
      (fun r hr => hv r (List.mem_cons_of_mem _ hr))
    rw [this]
    simp

theorem flatMap_uniform {β : Type} (f : β → List Nat) (N : Nat) (l : List β)
    (h : ∀ x ∈ l, (f x).length = N) :
    (l.flatMap f).length = l.length * N ∧
      ∀ p c, c < N → (l.flatMap f)[p * N + c]? = (l[p]?).bind fun x => (f x)[c]? := by
  induction l with
  | nil => simp
  | cons x l ih =>
    obtain ⟨ih1, ih2⟩ := ih (fun y hy => h y (List.mem_cons_of_mem _ hy))
    have hx := h x (List.mem_cons_self _ _)
    constructor
    · rw [List.flatMap_cons, List.length_append, ih1, hx, List.length_cons]
      ring
    · intro p c hc
      rw [List.flatMap_cons]
      cases p with
      | zero =>
        rw [List.getElem?_append_left (by omega)]
        simp
      | succ p =>
        rw [List.getElem?_append_right (by rw [hx, Nat.succ_mul]; omega)]
        have e : (p + 1) * N + c - (f x).length = p * N + c := by
          rw [hx, Nat.succ_mul]; omega
        rw [e, ih2 p c hc]
        simp

/-- Outcome of `CopySubset` on a source that is another object, of the same
class and value type. -/
theorem CopySubset_eq (m src : MultiValDenseBin) (used_indices : List Int) (k : Nat)
    (hk : src.VAL_T = m.VAL_T) (hf : isInt32 src.num_feature_) (hd : isInt32 src.num_data_)
    (hlen : src.LengthInv) (hle : k ≤ used_indices.length)
    (hv : ∀ r ∈ used_indices.take k, 0 ≤ r ∧ r < src.num_data_) :
    m.CopySubset (Bin.multiValDense src) used_indices (k : Int)
      = Result.ok { m with
          data_ := (used_indices.take k).flatMap fun r => rowVals src r.toNat } := by
  have h := CopySubset_outer_loop m src hf hd hlen used_indices k 0 [] (by omega)
    (by simpa using hv)
  unfold CopySubset forRange
  simp only [dynamic_cast, hk, if_true, sub_zero, Int.toNat_ofNat]
  rw [show (0 : Int) = ((0 : Nat) : Int) from rfl, h]
  simp

/-- C7, as stated, fails when the source is the target itself: `data_.clear()`
empties the store that was to be copied from.  With no index the call returns
that store emptied, so the source has changed.  With the indices `[2, 0]` the
first copy reads `data_[4]` of the vector just cleared, outside its size, which
is undefined (an implementation that finds the old elements still in place
rebuilds `[5, 6, 5, 6]`); the outcome is not the storage `[5, 6, 1, 2]`. -/
theorem CopySubset_aliased_counterexample :
    exampleStore.CopySubset Bin.self [] 0 = Result.ok { exampleStore with data_ := [] } ∧
      Bin.self.pointee { exampleStore with data_ := [] } ≠ Bin.self.pointee exampleStore ∧
      exampleStore.CopySubset Bin.self [2, 0] 2 = Result.undefined ∧
      exampleStore.CopySubset Bin.self [2, 0] 2
        ≠ Result.ok { exampleStore with data_ := [5, 6, 1, 2] } :=
  ⟨by decide, by decide, by with_unfolding_all decide, by with_unfolding_all decide⟩

/-- C7, amended: on a source that is another object than the target, of the
same class and value type, with `k` valid row ids, `CopySubset` replaces the
target's storage by the concatenation, in order, of the source rows
`used_indices[0..k)`: its length is `k * source.num_feature` and position
`p * source.num_feature + c` holds the source's value at
`used_indices[p] * source.num_feature + c`; nothing of the previous target
storage remains, the other members of the target are unchanged, and the source
is the same store after the call as before. -/
theorem CopySubset_copies_rows (m src : MultiValDenseBin) (used_indices : List Int) (k : Nat)
    (hk : src.VAL_T = m.VAL_T) (hty : src.WellTyped) (hlen : src.LengthInv)
    (hle : k ≤ used_indices.length)
    (hv : ∀ p, p < k → 0 ≤ used_indices.getD p 0 ∧ used_indices.getD p 0 < src.num_data_) :
    ∃ data, m.CopySubset (Bin.multiValDense src) used_indices (k : Int)
        = Result.ok { m with data_ := data } ∧
      data = (used_indices.take k).flatMap (fun r => rowVals src r.toNat) ∧
      (data.length : Int) = (k : Int) * src.num_feature_ ∧
      (∀ p c : Nat, p < k → (c : Int) < src.num_feature_ →
        ∃ v, data[p * src.num_feature_.toNat + c]? = some v ∧
          src.data_[(used_indices.getD p 0).toNat * src.num_feature_.toNat + c]? = some v) ∧
      (Bin.multiValDense src).pointee { m with data_ := data }
        = (Bin.multiValDense src).pointee m ∧
      (Bin.multiValDense src).pointee { m with data_ := data } = some src := by
  obtain ⟨hd, _, hf⟩ := hty
  have hv' : ∀ r ∈ used_indices.take k, 0 ≤ r ∧ r < src.num_data_ := by
    intro r hr
    obtain ⟨p, hp⟩ := List.mem_iff_getElem?.1 hr
    have hpk : p < k := by
      by_contra hc
      rw [List.getElem?_take_eq_none (by omega)] at hp
      exact absurd hp (by simp)
    rw [List.getElem?_take_of_lt hpk] at hp
    have := hv p hpk
    rwa [List.getD_eq_getElem?_getD, hp] at this
  have huni : ∀ r ∈ used_indices.take k, (rowVals src r.toNat).length = src.num_feature_.toNat := by
    intro r hr
    obtain ⟨h0, h1⟩ := hv' r hr
    apply rowVals_length hlen
    rw [Int.toNat_of_nonneg h0]
    exact h1
  obtain ⟨hl, hpt⟩ := flatMap_uniform (fun r : Int => rowVals src r.toNat) _ _ huni
  refine ⟨_, CopySubset_eq m src used_indices k hk hf hd hlen hle hv', rfl, ?_, ?_, rfl, rfl⟩
  · rw [hl, List.length_take, Nat.min_eq_left hle]
    rcases Nat.eq_zero_or_pos k with h0 | hpos
    · subst h0; simp
    · obtain ⟨hr0, hr1⟩ := hv 0 hpos
      have hnd : 0 < src.num_data_ := lt_of_le_of_lt hr0 hr1
      have hnn : (0 : Int) ≤ src.num_data_ * src.num_feature_ := by
        unfold LengthInv num_data at hlen
        rw [← hlen]
        exact Int.natCast_nonneg _
      have hf0 : 0 ≤ src.num_feature_ := by
        by_contra hc
        have : src.num_data_ * src.num_feature_ < 0 :=
          mul_neg_of_pos_of_neg hnd (not_le.1 hc)
        exact absurd hnn (not_le.2 this)
      push_cast
      rw [Int.toNat_of_nonneg hf0]
  · intro p c hp hc
    have hc' : c < src.num_feature_.toNat := by
      have : (0 : Int) ≤ src.num_feature_ := le_trans (Int.natCast_nonneg c) (le_of_lt hc)
      exact (Int.lt_toNat).2 hc
    obtain ⟨hr0, hr1⟩ := hv p hp
    have hget : (used_indices.take k)[p]? = some (used_indices.getD p 0) := by
      rw [List.getElem?_take_of_lt hp, List.getD_eq_getElem?_getD,
        List.getElem?_eq_getElem (by omega)]
      rfl
    have hR : ((used_indices.getD p 0).toNat : Int) < src.num_data_ := by
      rw [Int.toNat_of_nonneg hr0]; exact hr1
    have hlt := row_index_lt hlen hR hc'
    refine ⟨src.data_[(used_indices.getD p 0).toNat * src.num_feature_.toNat + c], ?_,
      List.getElem?_eq_getElem hlt⟩
    rw [hpt p c hc', hget, Option.some_bind, rowVals_getElem? _ _ _ hc',
      List.getElem?_eq_getElem hlt]

theorem CopySubset_copies_rows_witness :
    (ctor 8 2 7 2).CopySubset (Bin.multiValDense exampleStore) [2, 0] ((2 : Nat) : Int)
      = Result.ok { ctor 8 2 7 2 with data_ := [5, 6, 1, 2] } := by
  obtain ⟨data, h1, h2, _⟩ := CopySubset_copies_rows (ctor 8 2 7 2) exampleStore [2, 0] 2 rfl
    (by decide) (by decide) (by decide) (by decide)
  rw [h1, h2]
  decide

/-- C14, as stated, fails: copying the two rows `[2, 0]` into a target that
reports three rows leaves `num_data()` at 3. -/
theorem CopySubset_num_data_counterexample :
    ∃ s, exampleStore.CopySubset (Bin.multiValDense exampleStore) [2, 0] 2 = Result.ok s ∧
      s.num_data ≠ 2 :=
  ⟨{ exampleStore with data_ := [5, 6, 1, 2] }, by with_unfolding_all decide, by decide⟩

/-- C14, amended: on a source of the same class and value type, with `k` valid
row ids, `CopySubset` succeeds and leaves `num_data()` as it was, while the
storage then holds `k * source.num_feature` values; so `num_data()` is `k`
afterwards exactly when it was `k` before. -/
theorem CopySubset_keeps_num_data (m src : MultiValDenseBin) (used_indices : List Int)
    (k : Nat) (hk : src.VAL_T = m.VAL_T) (hty : src.WellTyped) (hlen : src.LengthInv)
    (hle : k ≤ used_indices.length)
    (hv : ∀ p, p < k → 0 ≤ used_indices.getD p 0 ∧ used_indices.getD p 0 < src.num_data_) :
    ∃ s, m.CopySubset (Bin.multiValDense src) used_indices (k : Int) = Result.ok s ∧
      s.num_data = m.num_data ∧ (s.data_.length : Int) = (k : Int) * src.num_feature_ ∧
      (s.num_data = (k : Int) ↔ m.num_data = (k : Int)) := by
  obtain ⟨hd, _, hf⟩ := hty
  have hv' : ∀ r ∈ used_indices.take k, 0 ≤ r ∧ r < src.num_data_ := by
    intro r hr
    obtain ⟨p, hp⟩ := List.mem_iff_getElem?.1 hr
    have hpk : p < k := by
      by_contra hc
      rw [List.getElem?_take_eq_none (by omega)] at hp
      exact absurd hp (by simp)
    rw [List.getElem?_take_of_lt hpk] at hp
    have := hv p hpk
    rwa [List.getD_eq_getElem?_getD, hp] at this
  have huni : ∀ r ∈ used_indices.take k, (rowVals src r.toNat).length = src.num_feature_.toNat := by
    intro r hr
    obtain ⟨h0, h1⟩ := hv' r hr
    apply rowVals_length hlen
    rw [Int.toNat_of_nonneg h0]
    exact h1
  obtain ⟨hl, _⟩ := flatMap_uniform (fun r : Int => rowVals src r.toNat) _ _ huni
  refine ⟨_, CopySubset_eq m src used_indices k hk hf hd hlen hle hv', rfl, ?_, Iff.rfl⟩
  show (((used_indices.take k).flatMap fun r => rowVals src r.toNat).length : Int) = _
  rw [hl, List.length_take, Nat.min_eq_left hle]
  rcases Nat.eq_zero_or_pos k with h0 | hpos
  · subst h0; simp
  · obtain ⟨hr0, hr1⟩ := hv 0 hpos
    have hnd : 0 < src.num_data_ := lt_of_le_of_lt hr0 hr1
    have hnn : (0 : Int) ≤ src.num_data_ * src.num_feature_ := by
      unfold LengthInv num_data at hlen
      rw [← hlen]
      exact Int.natCast_nonneg _
    have hf0 : 0 ≤ src.num_feature_ := by
      by_contra hc
      have : src.num_data_ * src.num_feature_ < 0 :=
        mul_neg_of_pos_of_neg hnd (not_le.1 hc)
      exact absurd hnn (not_le.2 this)
    push_cast
    rw [Int.toNat_of_nonneg hf0]

theorem CopySubset_keeps_num_data_witness :
    ∃ s, (exampleStore.ReSize 2).CopySubset (Bin.multiValDense exampleStore) [2, 0]
        ((2 : Nat) : Int) = Result.ok s ∧
      s.num_data = (exampleStore.ReSize 2).num_data ∧
      (s.data_.length : Int) = ((2 : Nat) : Int) * exampleStore.num_feature_ ∧
      (s.num_data = ((2 : Nat) : Int) ↔ (exampleStore.ReSize 2).num_data = ((2 : Nat) : Int)) :=
  CopySubset_keeps_num_data (exampleStore.ReSize 2) exampleStore [2, 0] 2 rfl
    (by decide) (by decide) (by decide) (by decide)

/-- C8: with a source of another class and no index to copy, `CopySubset`
returns normally, the target's storage emptied; with one index it dereferences
the null result of the cast; and for no input at all does it end in a fatal
abort. -/
theorem CopySubset_kind_mismatch_not_fatal :
    exampleStore.CopySubset Bin.other [] 0 = Result.ok { exampleStore with data_ := [] } ∧
      exampleStore.CopySubset Bin.other [0] 1 = Result.undefined ∧
      exampleStore.CopySubset (Bin.multiValDense { exampleStore with VAL_T := 16 }) [] 0
        = Result.ok { exampleStore with data_ := [] } ∧
      ∀ (m : MultiValDenseBin) (full_bin : Bin) (used_indices : List Int) (k : Int)
        (s : MultiValDenseBin), m.CopySubset full_bin used_indices k ≠ Result.fatal s := by
  refine ⟨by decide, by decide, by decide, ?_⟩
  intro m full_bin used_indices k s h
  unfold CopySubset at h
  dsimp only at h
  split at h <;> cases h

/-! ## Row push -/

theorem writeAt_length {α : Type} {xs res : List α} {i : Int} {v : α}
    (h : writeAt xs i v = some res) : res.length = xs.length := by
  unfold writeAt at h
  split at h
  · cases h; simp
  · cases h

theorem PushOneRow_loop_length (bits : Nat) (values : List Nat) (start : Int) (n : Nat)
    (i : Int) (data res : List Nat)
    (h : forLoop (PushOneRow.body bits values start) n i data = some res) :
    res.length = data.length := by
  induction n generalizing i data with
  | zero => cases h; rfl
  | succ n ih =>
    rw [forLoop_succ] at h
    cases hb : PushOneRow.body bits values start i data with
    | none => rw [hb] at h; cases h
    | some d1 =>
      rw [hb, Option.some_bind] at h
      rw [ih _ _ h]
      unfold PushOneRow.body at hb
      cases hr : readAt values (i - start) with
      | none => rw [hr] at hb; cases hb
      | some v =>
        rw [hr, Option.some_bind] at hb
        exact writeAt_length hb

theorem PushOneRow_loop (bits : Nat) (values : List Nat) (S n a : Nat) (data : List Nat)
    (hv : a + n ≤ values.length) (hd : S + a + n ≤ data.length) :
    ∃ res, forLoop (PushOneRow.body bits values (S : Int)) n ((S : Int) + (a : Int)) data
        = some res ∧ res.length = data.length ∧
      ∀ k, res[k]? = if S + a ≤ k ∧ k < S + a + n
        then (values[k - S]?).map (· % 2 ^ bits) else data[k]? := by
  induction n generalizing a data with
  | zero =>
    refine ⟨data, rfl, rfl, ?_⟩
    intro k
    rw [if_neg (by omega)]
  | succ n ih =>
    have ha : a < values.length := by omega
    have hva : values[a]? = some values[a] := List.getElem?_eq_getElem ha
    have hsa : S + a < data.length := by omega
    obtain ⟨res, h1, h2, h3⟩ := ih (a + 1) (data.set (S + a) (values[a] % 2 ^ bits))
      (by omega) (by rw [List.length_set]; omega)
    refine ⟨res, ?_, by rw [h2, List.length_set], ?_⟩
    · rw [forLoop_succ]
      unfold PushOneRow.body
      have e1 : (S : Int) + (a : Int) - (S : Int) = ((a : Nat) : Int) := by ring
      have e2 : (S : Int) + (a : Int) = ((S + a : Nat) : Int) := by push_cast; ring
      have e3 : ((S + a : Nat) : Int) + 1 = (S : Int) + ((a + 1 : Nat) : Int) := by
        push_cast; ring
      rw [e1, readAt_natCast, hva, Option.some_bind, e2, writeAt_natCast _ _ _ hsa,
        Option.some_bind, e3]
      unfold PushOneRow.body at h1
      exact h1
    · intro k
      rw [h3 k, List.getElem?_set]
      by_cases hk : S + a = k
      · subst hk
        rw [if_neg (by omega), if_pos rfl, if_pos hsa, if_pos (by omega)]
        simp [hva]
      · by_cases hk2 : S + (a + 1) ≤ k ∧ k < S + (a + 1) + n
        · rw [if_pos hk2, if_pos (by omega)]
        · rw [if_neg hk2, if_neg hk, if_neg (by omega)]

/-- C9: for a store with `num_data * num_feature` stored values, a row index
`0 <= idx < num_data` and `num_feature` values that fit `VAL_T`, `PushOneRow`
succeeds, position `idx * num_feature + c` then holds `values[c]`, every
position outside the row slot is unchanged, and so are the row count, the bin
count and the packing width. -/
theorem PushOneRow_writes_row (m : MultiValDenseBin) (tid idx : Int) (values : List Nat)
    (hty : m.WellTyped) (hlen : m.LengthInv) (h0 : 0 ≤ idx) (h1 : idx < m.num_data)
    (hvals : (values.length : Int) = m.num_feature_)
    (hrep : ∀ v ∈ values, v < 2 ^ m.VAL_T) :
    ∃ s, m.PushOneRow tid idx values = Result.ok s ∧
      s.num_data = m.num_data ∧ s.num_bin = m.num_bin ∧ s.num_feature_ = m.num_feature_ ∧
      s.VAL_T = m.VAL_T ∧ s.data_.length = m.data_.length ∧
      (∀ c, c < values.length →
        s.data_[idx.toNat * m.num_feature_.toNat + c]? = some (values.getD c 0)) ∧
      (∀ k, (k < idx.toNat * m.num_feature_.toNat ∨
          (idx.toNat + 1) * m.num_feature_.toNat ≤ k) → s.data_[k]? = m.data_[k]?) := by
  obtain ⟨hd, _, hf⟩ := hty
  obtain ⟨R, rfl⟩ := Int.eq_ofNat_of_zero_le h0
  have hN : m.num_feature_.toNat = values.length := by
    rw [← hvals]; exact Int.toNat_ofNat _
  obtain ⟨hp1, hp2⟩ := rowPtr_span hf hd (show (R : Int) < m.num_data_ from h1)
  have hend := row_end_le hlen (show (R : Int) < m.num_data_ from h1)
  rw [hN] at hend
  obtain ⟨res, hr1, hr2, hr3⟩ := PushOneRow_loop m.VAL_T values (R * values.length)
    values.length 0 m.data_ (by omega) (by omega)
  have hchk : m.num_feature_ = toInt32 (values.length : Int) := by
    rw [hvals, toInt32_eq hf]
  have hstart : m.RowPtr (R : Int) = ((R * values.length : Nat) : Int) := by
    rw [hp1, ← hvals]; push_cast; rfl
  have hrun : forRange (m.RowPtr (R : Int)) (m.RowPtr ((R : Int) + 1))
      (PushOneRow.body m.VAL_T values (m.RowPtr (R : Int))) m.data_ = some res := by
    unfold forRange
    rw [hp2, hN, hstart]
    have := hr1
    rw [Nat.cast_zero, add_zero] at this
    exact this
  refine ⟨{ m with data_ := res }, ?_, rfl, rfl, rfl, rfl, hr2, ?_, ?_⟩
  · unfold PushOneRow
    simp only
    rw [if_pos hchk, hrun]
  · intro c hc
    clear hp1 hp2 hstart hrun hchk hr1 hend hd hf
    show res[(R : Int).toNat * m.num_feature_.toNat + c]? = _
    rw [Int.toNat_ofNat, hN, hr3, if_pos (by omega)]
    have e : R * values.length + c - R * values.length = c := by omega
    have hvc : values[c]? = some values[c] := List.getElem?_eq_getElem hc
    have hmem : values[c] ∈ values := List.getElem_mem hc
    rw [e, List.getD_eq_getElem?_getD, hvc]
    simp only [Option.map_some', Option.getD_some]
    rw [Nat.mod_eq_of_lt (hrep _ hmem)]
  · intro k hk
    clear hp1 hp2 hstart hrun hchk hr1 hend hd hf
    show res[k]? = _
    rw [Int.toNat_ofNat, hN] at hk
    rw [hr3, if_neg]
    rintro ⟨ha, hb⟩
    rcases hk with hk | hk
    · omega
    · rw [Nat.add_mul] at hk
      omega

theorem PushOneRow_writes_row_witness :
    ∃ s, exampleStore.PushOneRow 0 1 [6, 0] = Result.ok s ∧
      s.num_data = exampleStore.num_data ∧ s.num_bin = exampleStore.num_bin ∧
      s.num_feature_ = exampleStore.num_feature_ ∧
      s.VAL_T = exampleStore.VAL_T ∧ s.data_.length = exampleStore.data_.length ∧
      (∀ c, c < [6, 0].length →
        s.data_[(1 : Int).toNat * exampleStore.num_feature_.toNat + c]?
          = some ([6, 0].getD c 0)) ∧
      (∀ k, (k < (1 : Int).toNat * exampleStore.num_feature_.toNat ∨
          ((1 : Int).toNat + 1) * exampleStore.num_feature_.toNat ≤ k) →
        s.data_[k]? = exampleStore.data_[k]?) :=
  PushOneRow_writes_row exampleStore 0 1 [6, 0] (by decide) (by decide) (by decide)
    (by decide) (by decide) (by decide)

theorem PushOneRow_fatal_iff (m : MultiValDenseBin) (tid idx : Int) (values : List Nat) :
    (∃ s, m.PushOneRow tid idx values = Result.fatal s) ↔
      m.num_feature_ ≠ toInt32 (values.length : Int) := by
  unfold PushOneRow
  dsimp only
  by_cases h : m.num_feature_ = toInt32 (values.length : Int)
  · rw [if_pos h]
    constructor
    · rintro ⟨s, hs⟩
      split at hs <;> cases hs
    · intro hc
      exact absurd h hc
  · rw [if_neg h]
    exact ⟨fun _ => h, fun _ => ⟨m, rfl⟩⟩

theorem PushOneRow_fatal_state (m : MultiValDenseBin) (tid idx : Int) (values : List Nat)
    (s : MultiValDenseBin) (h : m.PushOneRow tid idx values = Result.fatal s) : s = m := by
  unfold PushOneRow at h
  dsimp only at h
  split at h
  · split at h <;> cases h
  · cases h
    rfl

/-- The example store accepts any row whose length converts to the `int` 2,
and stores its first two values. -/
theorem PushOneRow_example_prefix (values : List Nat) (a b : Nat)
    (hlen : toInt32 (values.length : Int) = 2) (h0 : values[0]? = some a)
    (h1 : values[1]? = some b) :
    exampleStore.PushOneRow 0 0 values
      = Result.ok { exampleStore with data_ := [a % 2 ^ 8, b % 2 ^ 8, 3, 4, 5, 6] } := by
  have hr0 : exampleStore.RowPtr 0 = ((0 : Nat) : Int) := by with_unfolding_all decide
  have hr1 : exampleStore.RowPtr (0 + 1) = 2 := by with_unfolding_all decide
  have hn : ((2 : Int) - ((0 : Nat) : Int)).toNat = 2 := by decide
  have e0 : ((0 : Nat) : Int) - ((0 : Nat) : Int) = ((0 : Nat) : Int) := by decide
  have e1 : ((0 : Nat) : Int) + 1 - ((0 : Nat) : Int) = ((1 : Nat) : Int) := by decide
  have e2 : ((0 : Nat) : Int) + 1 = ((1 : Nat) : Int) := by decide
  have hrun : forRange (exampleStore.RowPtr 0) (exampleStore.RowPtr (0 + 1))
      (PushOneRow.body exampleStore.VAL_T values (exampleStore.RowPtr 0)) exampleStore.data_
      = some [a % 2 ^ 8, b % 2 ^ 8, 3, 4, 5, 6] := by
    unfold forRange
    have f1 : ∀ (f : Int → List Nat → Option (List Nat)) (i : Int) (d : List Nat),
        forLoop f 1 i d = (f i d).bind (forLoop f 0 (i + 1)) := fun _ _ _ => rfl
    rw [hr0, hr1, hn, forLoop_succ]
    unfold PushOneRow.body
    rw [e0, readAt_natCast, h0, Option.some_bind,
      writeAt_natCast _ _ _ (by decide), Option.some_bind, f1, e1, readAt_natCast, h1,
      Option.some_bind, e2, writeAt_natCast _ _ _ (by simp [exampleStore]), Option.some_bind,
      forLoop_zero]
    rfl
  unfold PushOneRow
  dsimp only
  rw [if_pos (by rw [hlen]; rfl), hrun]

/-- C10: a row of `2^32 + 2` values for a store of two features has the wrong
length, yet `PushOneRow` does not abort: the `CHECK` compares `num_feature_`
with the size narrowed to `int`, which is 2, and the call stores the first two
values (the row is silently truncated). -/
theorem PushOneRow_long_row_not_aborted :
    ((List.replicate 4294967298 0).length : Int) ≠ exampleStore.num_feature_ ∧
      exampleStore.PushOneRow 0 0 (List.replicate 4294967298 0)
        = Result.ok { exampleStore with data_ := [0, 0, 3, 4, 5, 6] } := by
  constructor
  · rw [List.length_replicate]
    decide
  · have h := PushOneRow_example_prefix (List.replicate 4294967298 0) 0 0
      (by rw [List.length_replicate]; with_unfolding_all decide)
      (List.getElem?_replicate_of_lt (by decide))
      (List.getElem?_replicate_of_lt (by decide))
    rw [h]
    rfl

/-- When `PushOneRow` aborts: if and only if `num_feature` differs from
`static_cast<int>(values.size())`, which for a row shorter than `2^31` is the
length test `values.size() != num_feature`; the store is then exactly as before
the call. -/
theorem PushOneRow_fatal_short_row (m : MultiValDenseBin) (tid idx : Int) (values : List Nat) :
    ((∃ s, m.PushOneRow tid idx values = Result.fatal s) ↔
        m.num_feature_ ≠ toInt32 (values.length : Int)) ∧
      ((values.length : Int) < 2 ^ 31 →
        ((∃ s, m.PushOneRow tid idx values = Result.fatal s) ↔
          (values.length : Int) ≠ m.num_feature_)) ∧
      ∀ s, m.PushOneRow tid idx values = Result.fatal s → s = m := by
  refine ⟨PushOneRow_fatal_iff m tid idx values, ?_, PushOneRow_fatal_state m tid idx values⟩
  intro hlt
  have hty : isInt32 (values.length : Int) :=
    ⟨le_trans (by norm_num) (Int.natCast_nonneg _), hlt⟩
  rw [PushOneRow_fatal_iff, toInt32_eq hty]
  exact ⟨fun h e => h e.symm, fun h e => h e.symm⟩

/-! ## The storage-length invariant -/

/-- C13, as stated, fails: `ReSize(1)` on a freshly constructed store of zero
rows and one feature is reachable and has an empty storage for one row. -/
theorem LengthInv_counterexample :
    Reachable ((ctor 8 0 7 1).ReSize 1) ∧ ¬ ((ctor 8 0 7 1).ReSize 1).LengthInv ∧
      (ctor 8 0 7 1).LengthInv :=
  ⟨Reachable.reSize 1 (Reachable.ctor 8 0 7 1), by decide, by decide⟩

/-- C13, amended: from a store whose storage length is
`num_data() * num_feature`, `PushOneRow` (however it ends), `FinishLoad` and
`Clone` give a store with that property again; `ReSize(n)` gives one exactly
when `n * num_feature` is the old `num_data() * num_feature`; and `CopySubset`
gives one exactly when the rebuilt storage has the old length. -/
theorem LengthInv_preserved (m : MultiValDenseBin) (h : m.LengthInv) :
    (∀ tid idx values s, (m.PushOneRow tid idx values).state? = some s → s.LengthInv) ∧
      m.FinishLoad.LengthInv ∧ (∀ g, (m.Clone g).LengthInv) ∧
      (∀ n, (m.ReSize n).LengthInv ↔ n * m.num_feature_ = m.num_data * m.num_feature_) ∧
      (∀ full_bin used_indices k s, m.CopySubset full_bin used_indices k = Result.ok s →
        (s.LengthInv ↔ s.data_.length = m.data_.length)) := by
  unfold LengthInv num_data at h
  refine ⟨?_, h, fun g => h, ?_, ?_⟩
  · intro tid idx values s hs
    unfold PushOneRow at hs
    dsimp only at hs
    split at hs
    · split at hs
      · rename_i data hrun
        simp only [Result.state?, Option.some.injEq] at hs
        subst hs
        have := PushOneRow_loop_length _ _ _ _ _ _ _ hrun
        unfold LengthInv num_data
        show ((data.length : Nat) : Int) = _
        rw [this]
        exact h
      · cases hs
    · simp only [Result.state?, Option.some.injEq] at hs
      subst hs
      exact h
  · intro n
    unfold ReSize LengthInv num_data
    by_cases hn : m.num_data_ = n
    · subst hn
      simp [h]
    · rw [if_pos hn]
      show (m.data_.length : Int) = n * m.num_feature_ ↔ _
      rw [h]
      exact ⟨fun e => e.symm, fun e => e.symm⟩
  · intro full_bin used_indices k s hs
    unfold CopySubset at hs
    dsimp only at hs
    split at hs
    · cases hs
      unfold LengthInv num_data
      show ((_ : Nat) : Int) = m.num_data_ * m.num_feature_ ↔ _
      rw [← h]
      exact Nat.cast_inj
    · cases hs

theorem LengthInv_preserved_witness :
    (∀ tid idx values s,
        (exampleStore.PushOneRow tid idx values).state? = some s → s.LengthInv) ∧
      exampleStore.FinishLoad.LengthInv ∧ (∀ g, (exampleStore.Clone g).LengthInv) ∧
      (∀ n, (exampleStore.ReSize n).LengthInv ↔
        n * exampleStore.num_feature_ = exampleStore.num_data * exampleStore.num_feature_) ∧
      (∀ full_bin used_indices k s,
        exampleStore.CopySubset full_bin used_indices k = Result.ok s →
        (s.LengthInv ↔ s.data_.length = exampleStore.data_.length)) :=
  LengthInv_preserved exampleStore (by decide)

/-! ## Histogram accumulation -/

theorem StoreOK.bin_bounds {m : MultiValDenseBin} {L : Nat} (hm : StoreOK m L) {v : Nat}
    (hv : v ∈ m.data_) : 2 * (v : Int) < 2 ^ 31 ∧ 2 * v + 1 < L := by
  obtain ⟨_, _, hbin, hL, hL31⟩ := hm
  have hvb := hbin v hv
  refine ⟨by linarith, ?_⟩
  have : ((2 * v + 1 : Nat) : Int) < (L : Int) := by
    push_cast
    linarith
  exact_mod_cast this

theorem Adds_rowLoop {α : Type} [AddCommMonoid α] {m : MultiValDenseBin} {L : Nat}
    (hm : StoreOK m L) (r : Int) (hr0 : 0 ≤ r) (hr1 : r < m.num_data_) (g h : α) :
    Adds L (rowLoop m r (some g) (some h)) (rowTerm m g h r.toNat) := by
  obtain ⟨R, rfl⟩ := Int.eq_ofNat_of_zero_le hr0
  have hm' := hm
  obtain ⟨⟨hnd, hnb, hnf⟩, hlen, hbin, hL⟩ := hm'
  have hnd' := hnd
  have hnb' := hnb
  unfold isInt32 at hnd' hnb'
  norm_num at hnd' hnb'
  have hR0 : isInt32 (R : Int) := by unfold isInt32; norm_num; omega
  have hR1 : isInt32 ((R : Int) + 1) := by unfold isInt32; norm_num; omega
  have hn : (m.RowPtr ((R : Int) + 1) - m.RowPtr (R : Int)).toNat = m.num_feature_.toNat := by
    rw [RowPtr_eq m hR0 hnf, RowPtr_eq m hR1 hnf]
    congr 1
    ring
  have hfun : rowLoop m (R : Int) (some g) (some h)
      = forLoop (rowBody m (some g) (some h)) m.num_feature_.toNat ((R : Int) * m.num_feature_) := by
    funext out
    rw [rowLoop, forRange, hn, RowPtr_eq m hR0 hnf]
  rw [hfun]
  have key := Adds_forLoop L (rowBody m (some g) (some h))
    (fun j => binTerm g h (m.data_.getD (R * m.num_feature_.toNat + j) 0))
    m.num_feature_.toNat ((R : Int) * m.num_feature_) ?_
  · rw [Int.toNat_ofNat]
    exact key
  · intro j hj
    clear hn
    have hN : (m.num_feature_.toNat : Int) = m.num_feature_ := toNat_cast_of_lt hj
    have hidx : (R : Int) * m.num_feature_ + (j : Int)
        = ((R * m.num_feature_.toNat + j : Nat) : Int) := by
      push_cast; rw [hN]
    have hlt := row_index_lt hm.2.1 hr1 hj
    obtain ⟨v, hv⟩ : ∃ v, m.data_[R * m.num_feature_.toNat + j]? = some v :=
      ⟨_, List.getElem?_eq_getElem hlt⟩
    have hvm : v ∈ m.data_ := List.getElem?_mem hv
    have hgd : m.data_.getD (R * m.num_feature_.toNat + j) 0 = v := by
      simp [List.getD_eq_getElem?_getD, hv]
    have hbody : rowBody m (some g) (some h) ((R : Int) * m.num_feature_ + (j : Int))
        = fun hist => ACC_GH hist v (some g) (some h) := by
      funext out
      unfold rowBody
      rw [hidx, readAt_natCast, hv, Option.some_bind]
    rw [hbody]
    simp only [hgd]
    exact Adds_ACC_GH L v g h (hm.bin_bounds hvm).1 (hm.bin_bounds hvm).2

theorem Adds_id {α : Type} [AddCommMonoid α] (L : Nat) :
    Adds L (fun out : List α => some out) (fun _ => 0) := by
  intro out hout
  refine ⟨out, rfl, hout, ?_⟩
  intro k
  cases out[k]? <;> simp

theorem Adds_bind {α : Type} [AddCommMonoid α] {L : Nat} {f g : List α → Option (List α)}
    {t u : Nat → α} (hf : Adds L f t) (hg : Adds L g u) :
    Adds L (fun out => (f out).bind g) (fun k => t k + u k) := by
  intro out hout
  obtain ⟨r1, h1, hl1, hp1⟩ := hf out hout
  obtain ⟨r2, h2, hl2, hp2⟩ := hg r1 hl1
  refine ⟨r2, ?_, hl2, ?_⟩
  · show (f out).bind g = some r2
    rw [h1, Option.some_bind, h2]
  · intro k
    rw [hp2 k, hp1 k]
    cases out[k]? <;> simp [add_assoc]

/-- A loop whose `j`-th iteration runs the inner loop on row `rows[j]` adds the
sum of the row terms. -/
theorem Adds_visit {α : Type} [AddCommMonoid α] {m : MultiValDenseBin} {L : Nat}
    (hm : StoreOK m L) (G H : Int → α) (body : Int → List α → Option (List α))
    (rows : List Int) (start : Int)
    (hrows : ∀ r ∈ rows, 0 ≤ r ∧ r < m.num_data_)
    (hbody : ∀ (j : Nat) (r : Int), rows[j]? = some r → ∀ out,
      body (start + (j : Int)) out = rowLoop m r (some (G r)) (some (H r)) out) :
    Adds L (forLoop body rows.length start)
      (fun k => (rows.map fun r => rowTerm m (G r) (H r) r.toNat k).sum) := by
  induction rows generalizing start with
  | nil =>
    exact Adds_congr (Adds_id L) (fun out _ => rfl) (fun k _ => by simp)
  | cons r rs ih =>
    obtain ⟨hr0, hr1⟩ := hrows r (List.mem_cons_self _ _)
    have h1 := Adds_rowLoop hm r hr0 hr1 (G r) (H r)
    have h2 := ih (start + 1) (fun x hx => hrows x (List.mem_cons_of_mem _ hx))
      (fun j x hx out => by
        have := hbody (j + 1) x (by simpa using hx) out
        have e : start + 1 + (j : Int) = start + ((j + 1 : Nat) : Int) := by push_cast; ring
        rw [e]
        exact this)
    refine Adds_congr (Adds_bind h1 h2) ?_ ?_
    · intro out _
      have := hbody 0 r (by simp) out
      rw [Nat.cast_zero, add_zero] at this
      rw [List.length_cons, forLoop_succ, this]
    · intro k _
      simp

theorem readAt_getD {α : Type} (xs : List α) (d : α) {r : Int} (h0 : 0 ≤ r)
    (h1 : r < (xs.length : Int)) : readAt xs r = some (xs.getD r.toNat d) := by
  obtain ⟨R, rfl⟩ := Int.eq_ofNat_of_zero_le h0
  have hR : R < xs.length := by exact_mod_cast h1
  rw [readAt_natCast, Int.toNat_ofNat, List.getD_eq_getElem?_getD, List.getElem?_eq_getElem hR]
  rfl

theorem range_rows_getElem? (s : Int) (n j : Nat) (r : Int)
    (h : ((List.range n).map fun i : Nat => s + (i : Int))[j]? = some r) : j < n ∧ r = s + (j : Int) := by
  rw [List.getElem?_map] at h
  by_cases hj : j < n
  · rw [List.getElem?_range hj] at h
    simp only [Option.map_some', Option.some.injEq] at h
    exact ⟨hj, h.symm⟩
  · rw [List.getElem?_eq_none (by rw [List.length_range]; omega)] at h
    cases h

theorem range_rows_mem (s e : Int) (r : Int)
    (h : r ∈ (List.range (e - s).toNat).map fun i : Nat => s + (i : Int)) : s ≤ r ∧ r < e := by
  obtain ⟨j, hj⟩ := List.mem_iff_getElem?.1 h
  obtain ⟨h1, h2⟩ := range_rows_getElem? s _ j r hj
  omega

/-- The shape of the two full-range overloads: the statistics of row `i` are
read at `i`. -/
theorem Adds_fullShape {α : Type} [AddCommMonoid α] {m : MultiValDenseBin} {L : Nat}
    (hm : StoreOK m L) (s e : Int) (Gopt Hopt : Int → Option α) (G H : Int → α)
    (h0 : 0 ≤ s) (he : e ≤ m.num_data_) (hpre : e + prefetch_size ≤ 2 ^ 31)
    (hG : ∀ r, 0 ≤ r → r < m.num_data_ → Gopt r = some (G r))
    (hH : ∀ r, 0 ≤ r → r < m.num_data_ → Hopt r = some (H r)) :
    Adds L (forRange s e fun i out =>
        (prefetchBlock e i (some ())).bind fun _ => rowLoop m i (Gopt i) (Hopt i) out)
      (fun k => (((List.range (e - s).toNat).map fun j : Nat => s + (j : Int)).map
        fun r => rowTerm m (G r) (H r) r.toNat k).sum) := by
  have hrows : ∀ r ∈ (List.range (e - s).toNat).map fun i : Nat => s + (i : Int),
      0 ≤ r ∧ r < m.num_data_ := by
    intro r hr
    have := range_rows_mem s e r hr
    omega
  have key := Adds_visit hm G H (fun i out =>
      (prefetchBlock e i (some ())).bind fun _ => rowLoop m i (Gopt i) (Hopt i) out)
    ((List.range (e - s).toNat).map fun i : Nat => s + (i : Int)) s hrows
    (fun j r hj out => by
      obtain ⟨_, h2⟩ := range_rows_getElem? s _ j r hj
      obtain ⟨ha, hb⟩ := hrows r (List.getElem?_mem hj)
      have hlt := (range_rows_mem s e r (List.getElem?_mem hj)).2
      have hblock : prefetchBlock e r (some ()) = some () :=
        prefetchBlock_some e r _ ha (by linarith) (fun _ => rfl)
      show (prefetchBlock e (s + (j : Int)) (some ())).bind (fun _ =>
        rowLoop m (s + (j : Int)) (Gopt (s + (j : Int))) (Hopt (s + (j : Int))) out) = _
      rw [← h2, hblock, Option.some_bind, hG r ha hb, hH r ha hb])
  rw [List.length_map, List.length_range] at key
  exact key

/-- The shape of the two indexed overloads: the row of position `i` is read
from `data_indices`, after the lookahead read of position `i + 16`. -/
theorem Adds_indexedShape {α : Type} [AddCommMonoid α] {m : MultiValDenseBin} {L : Nat}
    (hm : StoreOK m L) (di : List Int) (s e : Int) (Gopt Hopt : Int → Option α)
    (G H : Int → α) (h0 : 0 ≤ s) (he : e ≤ (di.length : Int))
    (hpre : e + prefetch_size ≤ 2 ^ 31)
    (hrows : ∀ r ∈ (di.drop s.toNat).take (e - s).toNat, 0 ≤ r ∧ r < m.num_data_)
    (hG : ∀ r, 0 ≤ r → r < m.num_data_ → Gopt r = some (G r))
    (hH : ∀ r, 0 ≤ r → r < m.num_data_ → Hopt r = some (H r)) :
    Adds L (forRange s e fun i out =>
        (prefetchBlock e i ((readAt di (i + prefetch_size)).bind fun _ => some ())).bind
          fun _ => (readAt di i).bind fun r => rowLoop m r (Gopt r) (Hopt r) out)
      (fun k => (((di.drop s.toNat).take (e - s).toNat).map
        fun r => rowTerm m (G r) (H r) r.toNat k).sum) := by
  obtain ⟨S, rfl⟩ := Int.eq_ofNat_of_zero_le h0
  have hlenrows : ((di.drop S).take (e - (S : Int)).toNat).length = (e - (S : Int)).toNat := by
    rw [List.length_take, List.length_drop]
    omega
  have key := Adds_visit hm G H (fun i out =>
        (prefetchBlock e i ((readAt di (i + prefetch_size)).bind fun _ => some ())).bind
          fun _ => (readAt di i).bind fun r => rowLoop m r (Gopt r) (Hopt r) out)
    ((di.drop S).take (e - (S : Int)).toNat) (S : Int)
    (by simpa using hrows)
    (fun j r hj out => by
      have hjn : j < (e - (S : Int)).toNat := by
        by_contra hc
        rw [List.getElem?_take_eq_none (by omega)] at hj
        cases hj
      obtain ⟨ha, hb⟩ := hrows r (by simpa using List.getElem?_mem hj)
      rw [List.getElem?_take_of_lt hjn, List.getElem?_drop] at hj
      have hpos : (S : Int) + (j : Int) = ((S + j : Nat) : Int) := by push_cast; ring
      have hblock : prefetchBlock e ((S : Int) + (j : Int))
          ((readAt di ((S : Int) + (j : Int) + prefetch_size)).bind fun _ => some ())
          = some () := by
        apply prefetchBlock_some
        · omega
        · unfold prefetch_size at hpre ⊢
          omega
        · intro hlt
          unfold prefetch_size at hlt ⊢
          have e16 : (S : Int) + (j : Int) + 16 = ((S + j + 16 : Nat) : Int) := by
            push_cast; ring
          have hin : S + j + 16 < di.length := by omega
          rw [e16, readAt_natCast, List.getElem?_eq_getElem hin, Option.some_bind]
      show ((prefetchBlock e ((S : Int) + (j : Int))
          ((readAt di ((S : Int) + (j : Int) + prefetch_size)).bind fun _ => some ())).bind
        fun _ => (readAt di ((S : Int) + (j : Int))).bind fun r =>
          rowLoop m r (Gopt r) (Hopt r) out) = _
      rw [hblock, Option.some_bind, hpos, readAt_natCast, hj, Option.some_bind,
        hG r ha hb, hH r ha hb])
  rw [Int.toNat_ofNat]
  rw [hlenrows] at key
  exact key

theorem HistCall.rows_valid {α : Type} {m : MultiValDenseBin} (c : HistCall α)
    (hc : c.InBounds m) : ∀ r ∈ c.rows, 0 ≤ r ∧ r < m.num_data_ := by
  cases c with
  | full s e g h =>
    intro r hr
    obtain ⟨h0, he, _, _⟩ := hc
    have := range_rows_mem s e r hr
    unfold num_data at he
    omega
  | indexed di s e g h => exact hc.2.2.2.1
  | fullGrad s e g =>
    intro r hr
    obtain ⟨h0, he, _⟩ := hc
    have := range_rows_mem s e r hr
    unfold num_data at he
    omega
  | indexedGrad di s e g => exact hc.2.2.2.1

/-- Every in-bounds call adds its term to the buffer. -/
theorem HistCall.adds {α : Type} [AddCommMonoid α] [One α] {m : MultiValDenseBin} {L : Nat}
    (hm : StoreOK m L) (c : HistCall α) (hc : c.InBounds m) :
    Adds L (c.run m) (c.term m) := by
  cases c with
  | full s e g h =>
    obtain ⟨h0, he, hpre, hg, hh⟩ := hc
    exact Adds_congr
      (Adds_fullShape hm s e (readAt g) (readAt h) (fun r => g.getD r.toNat 0)
        (fun r => h.getD r.toNat 0) h0 he hpre
        (fun r a b => readAt_getD g 0 a (lt_of_lt_of_le b hg))
        (fun r a b => readAt_getD h 0 a (lt_of_lt_of_le b hh)))
      (fun out _ => rfl) (fun k _ => rfl)
  | indexed di s e g h =>
    obtain ⟨h0, he, hpre, hr, hg, hh⟩ := hc
    exact Adds_congr
      (Adds_indexedShape hm di s e (readAt g) (readAt h) (fun r => g.getD r.toNat 0)
        (fun r => h.getD r.toNat 0) h0 he hpre hr
        (fun r a b => readAt_getD g 0 a (lt_of_lt_of_le b hg))
        (fun r a b => readAt_getD h 0 a (lt_of_lt_of_le b hh)))
      (fun out _ => rfl) (fun k _ => rfl)
  | fullGrad s e g =>
    obtain ⟨h0, he, hpre, hg⟩ := hc
    exact Adds_congr
      (Adds_fullShape hm s e (readAt g) (fun _ => some 1) (fun r => g.getD r.toNat 0)
        (fun _ => 1) h0 he hpre
        (fun r a b => readAt_getD g 0 a (lt_of_lt_of_le b hg))
        (fun r a b => rfl))
      (fun out _ => rfl) (fun k _ => rfl)
  | indexedGrad di s e g =>
    obtain ⟨h0, he, hpre, hr, hg⟩ := hc
    exact Adds_congr
      (Adds_indexedShape hm di s e (readAt g) (fun _ => some 1) (fun r => g.getD r.toNat 0)
        (fun _ => 1) h0 he hpre hr
        (fun r a b => readAt_getD g 0 a (lt_of_lt_of_le b hg))
        (fun r a b => rfl))
      (fun out _ => rfl) (fun k _ => rfl)

theorem HistCall.run_empty {α : Type} [Add α] [One α] (m : MultiValDenseBin) (c : HistCall α)
    (h : c.range.2 ≤ c.range.1) (B : List α) : c.run m B = some B := by
  cases c with
  | full s e g h' =>
    have hn : (e - s).toNat = 0 := Int.toNat_eq_zero.2 (sub_nonpos.2 h)
    show forLoop _ (e - s).toNat s B = some B
    rw [hn, forLoop_zero]
  | indexed di s e g h' =>
    have hn : (e - s).toNat = 0 := Int.toNat_eq_zero.2 (sub_nonpos.2 h)
    show forLoop _ (e - s).toNat s B = some B
    rw [hn, forLoop_zero]
  | fullGrad s e g =>
    have hn : (e - s).toNat = 0 := Int.toNat_eq_zero.2 (sub_nonpos.2 h)
    show forLoop _ (e - s).toNat s B = some B
    rw [hn, forLoop_zero]
  | indexedGrad di s e g =>
    have hn : (e - s).toNat = 0 := Int.toNat_eq_zero.2 (sub_nonpos.2 h)
    show forLoop _ (e - s).toNat s B = some B
    rw [hn, forLoop_zero]

/-- The result on a buffer is the buffer plus the result on zeros. -/
theorem Adds_linear {α : Type} [AddCommMonoid α] {L : Nat} {f : List α → Option (List α)}
    {t : Nat → α} (h : Adds L f t) (B : List α) (hB : B.length = L) :
    ∃ outB out0, f B = some outB ∧ f (List.replicate L 0) = some out0 ∧
      outB = addBuffers B out0 ∧ (∀ k, outB[k]? = (B[k]?).map (· + t k)) ∧
      (∀ k, k < L → out0[k]? = some (t k)) ∧ out0.length = L := by
  obtain ⟨outB, h1, h2, h3⟩ := h B hB
  obtain ⟨out0, g1, g2, g3⟩ := h (List.replicate L 0) (List.length_replicate _ _)
  have hz : ∀ k, k < L → out0[k]? = some (t k) := by
    intro k hk
    rw [g3 k, List.getElem?_replicate_of_lt hk]
    simp
  refine ⟨outB, out0, h1, g1, ?_, h3, hz, g2⟩
  apply List.ext_getElem?
  intro k
  unfold addBuffers
  rw [List.getElem?_zipWith, h3 k]
  by_cases hk : k < L
  · rw [hz k hk, List.getElem?_eq_getElem (by omega)]
    rfl
  · rw [List.getElem?_eq_none (by omega), List.getElem?_eq_none (by omega)]
    rfl

theorem rowTerm_slots {α : Type} [AddCommMonoid α] {m : MultiValDenseBin}
    (hlen : m.LengthInv) (g h : α) {R : Nat} (hR : (R : Int) < m.num_data_) (b : Nat) :
    rowTerm m g h R (2 * b)
        = ∑ c in Finset.range m.num_feature_.toNat,
            (if m.data_[R * m.num_feature_.toNat + c]? = some b then g else 0) ∧
      rowTerm m g h R (2 * b + 1)
        = ∑ c in Finset.range m.num_feature_.toNat,
            (if m.data_[R * m.num_feature_.toNat + c]? = some b then h else 0) := by
  unfold rowTerm
  constructor
  · apply Finset.sum_congr rfl
    intro c hc
    have hlt := row_index_lt hlen hR (Finset.mem_range.1 hc)
    rw [List.getD_eq_getElem?_getD, List.getElem?_eq_getElem hlt]
    simp only [Option.getD_some, binTerm, Option.some.injEq]
    by_cases hv : m.data_[R * m.num_feature_.toNat + c] = b
    · rw [if_pos (by omega), if_neg (by omega), if_pos hv, add_zero]
    · rw [if_neg (by omega), if_neg (by omega), if_neg hv, add_zero]
  · apply Finset.sum_congr rfl
    intro c hc
    have hlt := row_index_lt hlen hR (Finset.mem_range.1 hc)
    rw [List.getD_eq_getElem?_getD, List.getElem?_eq_getElem hlt]
    simp only [Option.getD_some, binTerm, Option.some.injEq]
    by_cases hv : m.data_[R * m.num_feature_.toNat + c] = b
    · rw [if_neg (by omega), if_pos (by omega), if_pos hv, zero_add]
    · rw [if_neg (by omega), if_neg (by omega), if_neg hv, add_zero]

theorem rowTerm_absent {α : Type} [AddCommMonoid α] {m : MultiValDenseBin}
    (hlen : m.LengthInv) (g h : α) {R : Nat} (hR : (R : Int) < m.num_data_) (b : Nat)
    (hb : b ∉ rowVals m R) : rowTerm m g h R (2 * b) = 0 ∧ rowTerm m g h R (2 * b + 1) = 0 := by
  obtain ⟨h1, h2⟩ := rowTerm_slots hlen g h hR b
  have hno : ∀ c ∈ Finset.range m.num_feature_.toNat,
      ¬ m.data_[R * m.num_feature_.toNat + c]? = some b := by
    intro c hc hcon
    rw [← rowVals_getElem? m R c (Finset.mem_range.1 hc)] at hcon
    exact hb (List.getElem?_mem hcon)
  rw [h1, h2]
  constructor
  · apply Finset.sum_eq_zero
    intro c hc
    rw [if_neg (hno c hc)]
  · apply Finset.sum_eq_zero
    intro c hc
    rw [if_neg (hno c hc)]

theorem HistCall.term_absent {α : Type} [AddCommMonoid α] [One α] {m : MultiValDenseBin}
    (hlen : m.LengthInv) (c : HistCall α) (hc : c.InBounds m) (b : Nat)
    (hb : ∀ r ∈ c.rows, b ∉ rowVals m r.toNat) :
    c.term m (2 * b) = 0 ∧ c.term m (2 * b + 1) = 0 := by
  have hv := c.rows_valid hc
  unfold HistCall.term
  constructor
  · apply List.sum_eq_zero
    intro x hx
    obtain ⟨r, hr, rfl⟩ := List.mem_map.1 hx
    obtain ⟨h0, h1⟩ := hv r hr
    exact (rowTerm_absent hlen _ _ (by rw [Int.toNat_of_nonneg h0]; exact h1) b (hb r hr)).1
  · apply List.sum_eq_zero
    intro x hx
    obtain ⟨r, hr, rfl⟩ := List.mem_map.1 hx
    obtain ⟨h0, h1⟩ := hv r hr
    exact (rowTerm_absent hlen _ _ (by rw [Int.toNat_of_nonneg h0]; exact h1) b (hb r hr)).2

/-- C5: for each of the four overloads, in-bounds arguments and a buffer `B` of
`2 * num_bin` accumulators, within the range of the 32-bit index arithmetic
(`2 * num_bin <= 2^31` slots, `end + prefetch_size <= 2^31`), the call on `B`
gives `B` plus, element-wise, what the same call gives on the all-zero buffer;
both slots of a bin id that occurs in no visited row are as in `B`; and with
`end <= start` the result is `B`. -/
theorem accumulate_only_adds (m : MultiValDenseBin) (L : Nat) (c : HistCall ℚ) (B : List ℚ)
    (hm : StoreOK m L) (hc : c.InBounds m) (hB : B.length = L) :
    ∃ outB out0, c.run m B = some outB ∧ c.run m (List.replicate L 0) = some out0 ∧
      outB = addBuffers B out0 ∧
      (∀ b : Nat, (∀ r ∈ c.rows, b ∉ rowVals m r.toNat) →
        outB[2 * b]? = B[2 * b]? ∧ outB[2 * b + 1]? = B[2 * b + 1]?) ∧
      (c.range.2 ≤ c.range.1 → outB = B) := by
  obtain ⟨outB, out0, h1, h2, h3, h4, _, _⟩ := Adds_linear (HistCall.adds hm c hc) B hB
  refine ⟨outB, out0, h1, h2, h3, ?_, ?_⟩
  · intro b hb
    obtain ⟨t0, t1⟩ := HistCall.term_absent hm.2.1 c hc b hb
    rw [h4, h4, t0, t1]
    constructor
    · cases B[2 * b]? <;> simp
    · cases B[2 * b + 1]? <;> simp
  · intro he
    have := HistCall.run_empty m c he B
    rw [h1] at this
    exact Option.some.inj this

theorem accumulate_only_adds_witness :
    ∃ outB out0,
      (HistCall.indexedGrad [2, 2, 0] 0 3 [1, 10, 100]).run exampleStore
          (List.replicate 14 (5 : ℚ)) = some outB ∧
      (HistCall.indexedGrad [2, 2, 0] 0 3 [1, 10, 100]).run exampleStore
          (List.replicate 14 0) = some out0 ∧
      outB = addBuffers (List.replicate 14 (5 : ℚ)) out0 ∧
      (∀ b : Nat, (∀ r ∈ (HistCall.indexedGrad [2, 2, 0] 0 3 [(1 : ℚ), 10, 100]).rows,
          b ∉ rowVals exampleStore r.toNat) →
        outB[2 * b]? = (List.replicate 14 (5 : ℚ))[2 * b]? ∧
          outB[2 * b + 1]? = (List.replicate 14 (5 : ℚ))[2 * b + 1]?) ∧
      ((HistCall.indexedGrad [2, 2, 0] 0 3 [(1 : ℚ), 10, 100]).range.2
          ≤ (HistCall.indexedGrad [2, 2, 0] 0 3 [(1 : ℚ), 10, 100]).range.1 →
        outB = List.replicate 14 (5 : ℚ)) :=
  accumulate_only_adds exampleStore 14 (HistCall.indexedGrad [2, 2, 0] 0 3 [1, 10, 100])
    (List.replicate 14 5) (by decide) (by decide) (by decide)

theorem range_rows_split (a b c : Int) (hab : a ≤ b) (hbc : b ≤ c) :
    ((List.range (c - a).toNat).map fun j : Nat => a + (j : Int))
      = ((List.range (b - a).toNat).map fun j : Nat => a + (j : Int))
        ++ ((List.range (c - b).toNat).map fun j : Nat => b + (j : Int)) := by
  have hn : (c - a).toNat = (b - a).toNat + (c - b).toNat := by omega
  rw [hn, List.range_add, List.map_append, List.map_map]
  congr 1
  apply List.map_congr_left
  intro j _
  show a + (((b - a).toNat + j : Nat) : Int) = b + (j : Int)
  push_cast
  rw [Int.toNat_of_nonneg (by omega)]
  ring

/-- C6: for `0 <= a <= b <= c <= num_data`, within the range of the 32-bit index
arithmetic (`2 * num_bin <= 2^31` slots, `c + prefetch_size <= 2^31`),
accumulating `[a, b)` and `[b, c)` into two all-zero buffers and adding these
element-wise gives the buffer of accumulating `[a, c)` into one all-zero
buffer. -/
theorem range_additivity (m : MultiValDenseBin) (L : Nat) (a b c : Int)
    (gradients hessians : List ℚ) (hm : StoreOK m L) (h0 : 0 ≤ a) (hab : a ≤ b)
    (hbc : b ≤ c) (hc : c ≤ m.num_data) (hpre : c + prefetch_size ≤ 2 ^ 31)
    (hg : m.num_data ≤ gradients.length) (hh : m.num_data ≤ hessians.length) :
    ∃ o1 o2 o3,
      m.ConstructHistogram a b gradients hessians (List.replicate L 0) = some o1 ∧
      m.ConstructHistogram b c gradients hessians (List.replicate L 0) = some o2 ∧
      m.ConstructHistogram a c gradients hessians (List.replicate L 0) = some o3 ∧
      addBuffers o1 o2 = o3 := by
  have hz : (List.replicate L (0 : ℚ)).length = L := List.length_replicate _ _
  obtain ⟨_, o1, _, e1, _, _, p1, l1⟩ := Adds_linear
    (HistCall.adds hm (HistCall.full a b gradients hessians)
      ⟨h0, le_trans hbc hc, le_trans (add_le_add_right hbc _) hpre, hg, hh⟩) _ hz
  obtain ⟨_, o2, _, e2, _, _, p2, l2⟩ := Adds_linear
    (HistCall.adds hm (HistCall.full b c gradients hessians)
      ⟨le_trans h0 hab, hc, hpre, hg, hh⟩) _ hz
  obtain ⟨_, o3, _, e3, _, _, p3, l3⟩ := Adds_linear
    (HistCall.adds hm (HistCall.full a c gradients hessians) ⟨h0, hc, hpre, hg, hh⟩) _ hz
  refine ⟨o1, o2, o3, e1, e2, e3, ?_⟩
  have hterm : ∀ k, (HistCall.full a c gradients hessians).term m k
      = (HistCall.full a b gradients hessians).term m k
        + (HistCall.full b c gradients hessians).term m k := by
    intro k
    unfold HistCall.term
    show (List.map _ ((List.range (c - a).toNat).map fun j : Nat => a + (j : Int))).sum = _
    rw [range_rows_split a b c hab hbc, List.map_append, List.sum_append]
    rfl
  apply List.ext_getElem?
  intro k
  unfold addBuffers
  rw [List.getElem?_zipWith]
  by_cases hk : k < L
  · rw [p1 k hk, p2 k hk, p3 k hk, hterm k]
  · rw [List.getElem?_eq_none (by omega), List.getElem?_eq_none (l := o3) (by omega)]

theorem range_additivity_witness :
    ∃ o1 o2 o3,
      exampleStore.ConstructHistogram 0 1 [(1 : ℚ), 10, 100] [2, 20, 200]
        (List.replicate 14 0) = some o1 ∧
      exampleStore.ConstructHistogram 1 3 [(1 : ℚ), 10, 100] [2, 20, 200]
        (List.replicate 14 0) = some o2 ∧
      exampleStore.ConstructHistogram 0 3 [(1 : ℚ), 10, 100] [2, 20, 200]
        (List.replicate 14 0) = some o3 ∧
      addBuffers o1 o2 = o3 :=
  range_additivity exampleStore 14 0 1 3 [1, 10, 100] [2, 20, 200] (by decide) (by decide)
    (by decide) (by decide) (by decide) (by decide) (by decide) (by decide)

/-- C18: for two index sequences that are permutations of each other, with
entries that are row ids, within the range of the 32-bit index arithmetic
(`2 * num_bin <= 2^31` slots, sequence length plus `prefetch_size` at most
`2^31`), the indexed accumulator over the whole of each gives the same buffer
from the same initial buffer. -/
theorem order_independent (m : MultiValDenseBin) (L : Nat) (S1 S2 : List Int)
    (gradients hessians B : List ℚ) (hm : StoreOK m L) (hB : B.length = L)
    (hperm : S1.Perm S2) (hrows : ∀ r ∈ S1, 0 ≤ r ∧ r < m.num_data)
    (hpre : (S1.length : Int) + prefetch_size ≤ 2 ^ 31)
    (hg : m.num_data ≤ gradients.length) (hh : m.num_data ≤ hessians.length) :
    ∃ out, m.ConstructHistogramIndexed S1 0 S1.length gradients hessians B = some out ∧
      m.ConstructHistogramIndexed S2 0 S2.length gradients hessians B = some out := by
  have hr1 : (HistCall.indexed S1 0 S1.length gradients hessians).rows = S1 := by
    simp [HistCall.rows]
  have hr2 : (HistCall.indexed S2 0 S2.length gradients hessians).rows = S2 := by
    simp [HistCall.rows]
  have hc1 : (HistCall.indexed S1 0 S1.length gradients hessians).InBounds m := by
    refine ⟨le_refl _, le_refl _, hpre, ?_, hg, hh⟩
    intro r hr
    exact hrows r (by simpa using hr)
  have hc2 : (HistCall.indexed S2 0 S2.length gradients hessians).InBounds m := by
    refine ⟨le_refl _, le_refl _, by rw [← hperm.length_eq]; exact hpre, ?_, hg, hh⟩
    intro r hr
    exact hrows r (hperm.mem_iff.2 (by simpa using hr))
  obtain ⟨o1, e1, l1, p1⟩ := HistCall.adds hm _ hc1 B hB
  obtain ⟨o2, e2, l2, p2⟩ := HistCall.adds hm _ hc2 B hB
  have hterm : ∀ k, (HistCall.indexed S1 0 S1.length gradients hessians).term m k
      = (HistCall.indexed S2 0 S2.length gradients hessians).term m k := by
    intro k
    unfold HistCall.term
    rw [hr1, hr2]
    exact (hperm.map _).sum_eq
  have ho : o1 = o2 := by
    apply List.ext_getElem?
    intro k
    rw [p1 k, p2 k, hterm k]
  exact ⟨o1, e1, by rw [ho]; exact e2⟩

theorem order_independent_witness :
    ∃ out, exampleStore.ConstructHistogramIndexed [2, 0, 2] 0 ([2, 0, 2] : List Int).length
        [(1 : ℚ), 10, 100] [2, 20, 200] (List.replicate 14 7) = some out ∧
      exampleStore.ConstructHistogramIndexed [0, 2, 2] 0 ([0, 2, 2] : List Int).length
        [(1 : ℚ), 10, 100] [2, 20, 200] (List.replicate 14 7) = some out :=
  order_independent exampleStore 14 [2, 0, 2] [0, 2, 2] [1, 10, 100] [2, 20, 200]
    (List.replicate 14 7) (by decide) (by decide) (by decide) (by decide) (by decide)
    (by decide) (by decide)

/-! ## Reference sums -/

theorem list_sum_map_range {α : Type} [AddCommMonoid α] (f : Nat → α) (n : Nat) :
    ((List.range n).map f).sum = ∑ j in Finset.range n, f j := by
  induction n with
  | zero => simp
  | succ n ih =>
    rw [List.range_succ, List.map_append, List.sum_append, ih, Finset.sum_range_succ]
    simp

theorem list_sum_map_window {α : Type} [AddCommMonoid α] (l : List Int) (F : Int → α)
    (s n : Nat) (h : s + n ≤ l.length) :
    (((l.drop s).take n).map F).sum = ∑ j in Finset.range n, F (l.getD (s + j) 0) := by
  induction n with
  | zero => simp
  | succ n ih =>
    have hlt : s + n < l.length := by omega
    rw [List.take_succ, List.getElem?_drop, List.getElem?_eq_getElem hlt, List.map_append,
      List.sum_append, ih (by omega), Finset.sum_range_succ, List.getD_eq_getElem?_getD,
      List.getElem?_eq_getElem hlt]
    simp

theorem full_term_eq_sum {α : Type} [AddCommMonoid α] (F : Nat → α) (s e : Int)
    (h0 : 0 ≤ s) :
    (((List.range (e - s).toNat).map fun j : Nat => s + (j : Int)).map
        fun r => F r.toNat).sum
      = ∑ i in Finset.Ico s.toNat e.toNat, F i := by
  obtain ⟨S, rfl⟩ := Int.eq_ofNat_of_zero_le h0
  rw [List.map_map, list_sum_map_range, Finset.sum_Ico_eq_sum_range]
  have hn : (e - (S : Int)).toNat = e.toNat - (S : Int).toNat := by omega
  rw [hn]
  apply Finset.sum_congr rfl
  intro j _
  show F ((S : Int) + (j : Int)).toNat = F ((S : Int).toNat + j)
  congr 1

theorem indexed_term_eq_sum {α : Type} [AddCommMonoid α] (F : Nat → α) (di : List Int)
    (s e : Int) (h0 : 0 ≤ s) (he : e ≤ (di.length : Int)) :
    (((di.drop s.toNat).take (e - s).toNat).map fun r => F r.toNat).sum
      = ∑ p in Finset.Ico s.toNat e.toNat, F (di.getD p 0).toNat := by
  obtain ⟨S, rfl⟩ := Int.eq_ofNat_of_zero_le h0
  have hn : (e - (S : Int)).toNat = e.toNat - (S : Int).toNat := by omega
  rcases Nat.eq_zero_or_pos (e - (S : Int)).toNat with hz | hpos
  · rw [Finset.sum_Ico_eq_sum_range, ← hn, hz]
    simp
  · rw [list_sum_map_window di (fun r => F r.toNat) _ _ (by omega),
      Finset.sum_Ico_eq_sum_range, hn]

theorem sum_indicator (N : Nat) (P : Nat → Prop) [DecidablePred P] (g : ℚ) :
    (∑ c in Finset.range N, if P c then g else 0)
      = g * (((Finset.range N).filter P).card : ℚ) := by
  rw [Finset.sum_ite, Finset.sum_const_zero, add_zero, Finset.sum_const, nsmul_eq_mul,
    mul_comm]

theorem StoreOK.slot_lt {m : MultiValDenseBin} {L : Nat} (hm : StoreOK m L) {b : Nat}
    (hb : (b : Int) < m.num_bin_) : 2 * b + 1 < L := by
  obtain ⟨_, _, _, hL, _⟩ := hm
  have : ((2 * b + 1 : Nat) : Int) < (L : Int) := by
    push_cast
    linarith
  exact_mod_cast this

/-- C1: on a store with `num_data * num_feature` stored values below `num_bin`,
a range `0 <= start`, `end <= num_data`, statistics arrays covering every row
and an all-zero buffer of `2 * num_bin` accumulators, within the range of the
32-bit index arithmetic (`2 * num_bin <= 2^31` slots,
`end + prefetch_size <= 2^31`), the full-range accumulator returns a buffer
whose slot `2b` is the sum of `gradients[i]` over the pairs (row `i` in
`[start, end)`, column `c`) with `data_[i * num_feature + c] = b`, and whose
slot `2b + 1` is that sum with `hessians[i]`. -/
theorem ConstructHistogram_sums (m : MultiValDenseBin) (L : Nat) (start end_ : Int)
    (gradients hessians : List ℚ) (hm : StoreOK m L) (h0 : 0 ≤ start)
    (he : end_ ≤ m.num_data) (hpre : end_ + prefetch_size ≤ 2 ^ 31)
    (hg : m.num_data ≤ gradients.length) (hh : m.num_data ≤ hessians.length) :
    ∃ out, m.ConstructHistogram start end_ gradients hessians (List.replicate L 0) = some out ∧
      out.length = L ∧
      ∀ b : Nat, (b : Int) < m.num_bin →
        out[2 * b]? = some (∑ i in Finset.Ico start.toNat end_.toNat,
          ∑ c in Finset.range m.num_feature_.toNat,
            if m.data_[i * m.num_feature_.toNat + c]? = some b
            then gradients.getD i 0 else 0) ∧
        out[2 * b + 1]? = some (∑ i in Finset.Ico start.toNat end_.toNat,
          ∑ c in Finset.range m.num_feature_.toNat,
            if m.data_[i * m.num_feature_.toNat + c]? = some b
            then hessians.getD i 0 else 0) := by
  obtain ⟨_, out, _, e1, _, _, p, l⟩ := Adds_linear
    (HistCall.adds hm (HistCall.full start end_ gradients hessians)
      ⟨h0, he, hpre, hg, hh⟩)
    (List.replicate L 0) (List.length_replicate _ _)
  refine ⟨out, e1, l, ?_⟩
  intro b hb
  have hs := hm.slot_lt hb
  have hterm : ∀ k, (HistCall.full start end_ gradients hessians).term m k
      = ∑ i in Finset.Ico start.toNat end_.toNat,
          rowTerm m (gradients.getD i 0) (hessians.getD i 0) i k := fun k =>
    full_term_eq_sum
      (fun i => rowTerm m (gradients.getD i 0) (hessians.getD i 0) i k) start end_ h0
  have hrow : ∀ i ∈ Finset.Ico start.toNat end_.toNat, (i : Int) < m.num_data_ := by
    intro i hi
    have := (Finset.mem_Ico.1 hi).2
    unfold num_data at he
    omega
  rw [p _ (by omega), p _ hs, hterm, hterm]
  constructor
  · congr 1
    apply Finset.sum_congr rfl
    intro i hi
    exact (rowTerm_slots hm.2.1 _ _ (hrow i hi) b).1
  · congr 1
    apply Finset.sum_congr rfl
    intro i hi
    exact (rowTerm_slots hm.2.1 _ _ (hrow i hi) b).2

theorem ConstructHistogram_sums_witness :
    ∃ out, exampleStore.ConstructHistogram 0 3 [(1 : ℚ), 10, 100] [2, 20, 200]
        (List.replicate 14 0) = some out ∧
      out.length = 14 ∧
      ∀ b : Nat, (b : Int) < exampleStore.num_bin →
        out[2 * b]? = some (∑ i in Finset.Ico (0 : Int).toNat (3 : Int).toNat,
          ∑ c in Finset.range exampleStore.num_feature_.toNat,
            if exampleStore.data_[i * exampleStore.num_feature_.toNat + c]? = some b
            then ([(1 : ℚ), 10, 100] : List ℚ).getD i 0 else 0) ∧
        out[2 * b + 1]? = some (∑ i in Finset.Ico (0 : Int).toNat (3 : Int).toNat,
          ∑ c in Finset.range exampleStore.num_feature_.toNat,
            if exampleStore.data_[i * exampleStore.num_feature_.toNat + c]? = some b
            then ([(2 : ℚ), 20, 200] : List ℚ).getD i 0 else 0) :=
  ConstructHistogram_sums exampleStore 14 0 3 [1, 10, 100] [2, 20, 200] (by decide)
    (by decide) (by decide) (by decide) (by decide) (by decide)

/-- C2: on such a store, for an index sequence whose entries at the positions
`[start, end)` are row ids (repeats allowed) and an all-zero buffer, within the
range of the 32-bit index arithmetic (`2 * num_bin <= 2^31` slots,
`end + prefetch_size <= 2^31`), the indexed accumulator returns a buffer whose
slot `2b` is the sum over the positions `p`
of `gradients[data_indices[p]]` times the number of occurrences of `b` in row
`data_indices[p]`, and whose slot `2b + 1` is that sum with
`hessians[data_indices[p]]`: the statistics are looked up by row id. -/
theorem ConstructHistogramIndexed_sums (m : MultiValDenseBin) (L : Nat)
    (data_indices : List Int) (start end_ : Int) (gradients hessians : List ℚ)
    (hm : StoreOK m L) (h0 : 0 ≤ start) (he : end_ ≤ data_indices.length)
    (hpre : end_ + prefetch_size ≤ 2 ^ 31)
    (hrows : ∀ r ∈ (data_indices.drop start.toNat).take (end_ - start).toNat,
      0 ≤ r ∧ r < m.num_data)
    (hg : m.num_data ≤ gradients.length) (hh : m.num_data ≤ hessians.length) :
    ∃ out, m.ConstructHistogramIndexed data_indices start end_ gradients hessians
        (List.replicate L 0) = some out ∧
      out.length = L ∧
      ∀ b : Nat, (b : Int) < m.num_bin →
        out[2 * b]? = some (∑ p in Finset.Ico start.toNat end_.toNat,
          gradients.getD (data_indices.getD p 0).toNat 0
            * (occurrences m (data_indices.getD p 0).toNat b : ℚ)) ∧
        out[2 * b + 1]? = some (∑ p in Finset.Ico start.toNat end_.toNat,
          hessians.getD (data_indices.getD p 0).toNat 0
            * (occurrences m (data_indices.getD p 0).toNat b : ℚ)) := by
  obtain ⟨_, out, _, e1, _, _, p, l⟩ := Adds_linear
    (HistCall.adds hm (HistCall.indexed data_indices start end_ gradients hessians)
      ⟨h0, he, hpre, hrows, hg, hh⟩)
    (List.replicate L 0) (List.length_replicate _ _)
  refine ⟨out, e1, l, ?_⟩
  intro b hb
  have hs := hm.slot_lt hb
  have hterm : ∀ k, (HistCall.indexed data_indices start end_ gradients hessians).term m k
      = ∑ p in Finset.Ico start.toNat end_.toNat,
          rowTerm m (gradients.getD (data_indices.getD p 0).toNat 0)
            (hessians.getD (data_indices.getD p 0).toNat 0)
            (data_indices.getD p 0).toNat k := fun k =>
    indexed_term_eq_sum
      (fun i => rowTerm m (gradients.getD i 0) (hessians.getD i 0) i k)
      data_indices start end_ h0 he
  have hrow : ∀ q ∈ Finset.Ico start.toNat end_.toNat,
      ((data_indices.getD q 0).toNat : Int) < m.num_data_ := by
    intro q hq
    obtain ⟨hq1, hq2⟩ := Finset.mem_Ico.1 hq
    have hql : q < data_indices.length := by omega
    have hmem : data_indices.getD q 0
        ∈ (data_indices.drop start.toNat).take (end_ - start).toNat := by
      apply List.getElem?_mem (n := q - start.toNat)
      rw [List.getElem?_take_of_lt (by omega), List.getElem?_drop,
        List.getD_eq_getElem?_getD]
      have e : start.toNat + (q - start.toNat) = q := by omega
      rw [e, List.getElem?_eq_getElem hql]
      rfl
    obtain ⟨ha, hb'⟩ := hrows _ hmem
    rw [Int.toNat_of_nonneg ha]
    exact hb'
  rw [p _ (by omega), p _ hs, hterm, hterm]
  constructor
  · congr 1
    apply Finset.sum_congr rfl
    intro q hq
    rw [(rowTerm_slots hm.2.1 _ _ (hrow q hq) b).1, sum_indicator]
    rfl
  · congr 1
    apply Finset.sum_congr rfl
    intro q hq
    rw [(rowTerm_slots hm.2.1 _ _ (hrow q hq) b).2, sum_indicator]
    rfl

theorem ConstructHistogramIndexed_sums_witness :
    ∃ out, exampleStore.ConstructHistogramIndexed [2, 2, 0] 0 3 [(1 : ℚ), 10, 100]
        [2, 20, 200] (List.replicate 14 0) = some out ∧
      out.length = 14 ∧
      ∀ b : Nat, (b : Int) < exampleStore.num_bin →
        out[2 * b]? = some (∑ p in Finset.Ico (0 : Int).toNat (3 : Int).toNat,
          ([(1 : ℚ), 10, 100] : List ℚ).getD (([2, 2, 0] : List Int).getD p 0).toNat 0
            * (occurrences exampleStore (([2, 2, 0] : List Int).getD p 0).toNat b : ℚ)) ∧
        out[2 * b + 1]? = some (∑ p in Finset.Ico (0 : Int).toNat (3 : Int).toNat,
          ([(2 : ℚ), 20, 200] : List ℚ).getD (([2, 2, 0] : List Int).getD p 0).toNat 0
            * (occurrences exampleStore (([2, 2, 0] : List Int).getD p 0).toNat b : ℚ)) :=
  ConstructHistogramIndexed_sums exampleStore 14 [2, 2, 0] 0 3 [1, 10, 100] [2, 20, 200]
    (by decide) (by decide) (by decide) (by decide) (by decide) (by decide) (by decide)

/-! ## Equivalence of the overloads -/

/-- C3: with the identity sequence (`data_indices[i] = i` for every row `i`)
and a range `0 <= start`, `end <= num_data`, the indexed accumulator and the
full-range accumulator have the same outcome on every buffer, for any
statistics type and any addition on it (so also addition that rounds). -/
theorem indexed_identity_eq_full {α : Type} [Add α] (m : MultiValDenseBin)
    (data_indices : List Int) (start end_ : Int) (gradients hessians out : List α)
    (hid : ∀ i : Nat, (i : Int) < m.num_data → data_indices[i]? = some (i : Int))
    (h0 : 0 ≤ start) (he : end_ ≤ m.num_data) :
    m.ConstructHistogramIndexed data_indices start end_ gradients hessians out
      = m.ConstructHistogram start end_ gradients hessians out := by
  unfold ConstructHistogramIndexed ConstructHistogram forRange
  apply forLoop_congr
  intro j hj s
  obtain ⟨S, rfl⟩ := Int.eq_ofNat_of_zero_le h0
  have hi : (((S + j : Nat) : Nat) : Int) < m.num_data := by
    push_cast
    omega
  have hpos : (S : Int) + (j : Int) = ((S + j : Nat) : Int) := by push_cast; ring
  have hblock : prefetchBlock end_ ((S : Int) + (j : Int))
      ((readAt data_indices ((S : Int) + (j : Int) + prefetch_size)).bind fun _ => some ())
      = prefetchBlock end_ ((S : Int) + (j : Int)) (some ()) := by
    apply prefetchBlock_congr
    intro hlt
    unfold prefetch_size at hlt ⊢
    have e16 : (S : Int) + (j : Int) + 16 = ((S + j + 16 : Nat) : Int) := by
      push_cast; ring
    have h16 : (((S + j + 16 : Nat) : Nat) : Int) < m.num_data := by
      push_cast
      omega
    rw [e16, readAt_natCast, hid _ h16, Option.some_bind]
  show ((prefetchBlock end_ ((S : Int) + (j : Int))
      ((readAt data_indices ((S : Int) + (j : Int) + prefetch_size)).bind
        fun _ => some ())).bind fun _ =>
    (readAt data_indices ((S : Int) + (j : Int))).bind fun r =>
      rowLoop m r (readAt gradients r) (readAt hessians r) s) = _
  rw [hblock, hpos, readAt_natCast, hid _ hi, Option.some_bind]

set_option maxRecDepth 100000 in
theorem indexed_identity_eq_full_witness :
    exampleStore.ConstructHistogramIndexed [0, 1, 2] 0 3 [(1 : Int), 10, 100] [2, 20, 200]
        (List.replicate 14 0)
      = exampleStore.ConstructHistogram 0 3 [(1 : Int), 10, 100] [2, 20, 200]
        (List.replicate 14 0) ∧
    exampleStore.ConstructHistogram 0 3 [(1 : Int), 10, 100] [2, 20, 200]
        (List.replicate 14 0)
      = some [0, 0, 1, 2, 1, 2, 10, 20, 10, 20, 100, 200, 100, 200] :=
  ⟨indexed_identity_eq_full exampleStore [0, 1, 2] 0 3 [1, 10, 100] [2, 20, 200]
      (List.replicate 14 0)
      (fun i hi => by
        have h3 : i < 3 := by
          have : (i : Int) < 3 := hi
          omega
        interval_cases i <;> rfl)
      (by decide) (by decide),
    by with_unfolding_all decide⟩

theorem rowLoop_unit_hessian {α : Type} [Add α] [One α] (m : MultiValDenseBin)
    (gradients hessians : List α) (hone : ∀ x ∈ hessians, x = 1)
    (hlen : gradients.length ≤ hessians.length) (r : Int) (out : List α) :
    rowLoop m r (readAt gradients r) (some 1) out
      = rowLoop m r (readAt gradients r) (readAt hessians r) out := by
  cases hr : readAt gradients r with
  | none =>
    have hb : ∀ h : Option α, rowBody m (none : Option α) h
        = fun idx out => (readAt m.data_ idx).bind fun _ => none := by
      intro h
      funext idx o
      unfold rowBody ACC_GH
      cases readAt m.data_ idx with
      | none => rfl
      | some v => rw [Option.some_bind, Option.some_bind, Option.none_bind]
    unfold rowLoop
    rw [hb, hb]
  | some gv =>
    obtain ⟨hr0, hr1⟩ := (readAt_eq_some_iff _ _ _).1 hr
    have hlt : r.toNat < gradients.length := by
      by_contra hc
      rw [List.getElem?_eq_none (by omega)] at hr1
      cases hr1
    have hlt2 : r.toNat < hessians.length := by omega
    have hx : hessians[r.toNat] = 1 := hone _ (List.getElem_mem hlt2)
    have hh : readAt hessians r = some 1 := by
      unfold readAt
      rw [if_pos hr0, List.getElem?_eq_getElem hlt2, hx]
    rw [hh]

/-- C4: for both traversals, the gradient-only accumulator has the same outcome
on every buffer as the gradient+hessian accumulator called with a hessian
array whose every entry is 1 (and which is as long as the gradient array), for
any statistics type with an addition and a unit. -/
theorem gradient_only_eq_unit_hessian {α : Type} [Add α] [One α] (m : MultiValDenseBin)
    (data_indices : List Int) (start end_ : Int) (gradients hessians out : List α)
    (hone : ∀ x ∈ hessians, x = 1) (hlen : gradients.length ≤ hessians.length) :
    m.ConstructHistogramGrad start end_ gradients out
        = m.ConstructHistogram start end_ gradients hessians out ∧
      m.ConstructHistogramIndexedGrad data_indices start end_ gradients out
        = m.ConstructHistogramIndexed data_indices start end_ gradients hessians out := by
  constructor
  · unfold ConstructHistogramGrad ConstructHistogram forRange
    apply forLoop_congr
    intro j _ s
    show (_ : Option Unit).bind (fun _ => rowLoop m _ (readAt gradients _) (some 1) s) = _
    rw [rowLoop_unit_hessian m gradients hessians hone hlen _ s]
  · unfold ConstructHistogramIndexedGrad ConstructHistogramIndexed forRange
    apply forLoop_congr
    intro j _ s
    have hfun : (fun r => rowLoop m r (readAt gradients r) (some 1) s)
        = fun r => rowLoop m r (readAt gradients r) (readAt hessians r) s := by
      funext r
      exact rowLoop_unit_hessian m gradients hessians hone hlen r s
    show (_ : Option Unit).bind (fun _ => (readAt data_indices _).bind
      (fun r => rowLoop m r (readAt gradients r) (some 1) s)) = _
    rw [hfun]

set_option maxRecDepth 100000 in
theorem gradient_only_eq_unit_hessian_witness :
    (exampleStore.ConstructHistogramGrad 0 3 [(1 : Int), 10, 100] (List.replicate 14 0)
        = exampleStore.ConstructHistogram 0 3 [(1 : Int), 10, 100] [1, 1, 1]
          (List.replicate 14 0) ∧
      exampleStore.ConstructHistogramIndexedGrad [2, 0, 1] 0 3 [(1 : Int), 10, 100]
          (List.replicate 14 0)
        = exampleStore.ConstructHistogramIndexed [2, 0, 1] 0 3 [(1 : Int), 10, 100]
          [1, 1, 1] (List.replicate 14 0)) ∧
    exampleStore.ConstructHistogramGrad 0 3 [(1 : Int), 10, 100] (List.replicate 14 0)
      = some [0, 0, 1, 1, 1, 1, 10, 1, 10, 1, 100, 1, 100, 1] :=
  ⟨gradient_only_eq_unit_hessian exampleStore [2, 0, 1] 0 3 [1, 10, 100] [1, 1, 1]
      (List.replicate 14 0) (by decide) (by decide),
    by with_unfolding_all decide⟩

/-! ## Memory safety of the accumulators -/

end LightGBM
